import Mathlib

/-!
Shallow embedding of the kanban board engine in `src/scripts/kanban.ts`
(line tokenizer, item parser, item serializer, lane model, mutation
commands) together with the shift-archive naming loop of the oncall CLI.

Strings are modelled as `String`/`List Char`; the JS regex scans of
`parseItem` are implemented as explicit fueled character scanners, so all
definitions are executable.  JS `\s` is modelled on the ASCII range
(space, tab, newline, carriage return, vertical tab, form feed);
`toLowerCase` is modelled on the ASCII range.  `Math.random`-generated
identifiers, the current date, and filesystem existence are inputs
(oracle parameters) of the corresponding functions.
-/

namespace Kanban

/-- JS `\s` restricted to the ASCII whitespace characters. -/
def isWsChar (c : Char) : Bool :=
  c = ' ' || c = '\t' || c = '\n' || c = '\r' || c = '\x0b' || c = '\x0c'

/-- JS `\w`: word characters. -/
def isWordChar (c : Char) : Bool :=
  ('a' ≤ c && c ≤ 'z') || ('A' ≤ c && c ≤ 'Z') || ('0' ≤ c && c ≤ '9') || c = '_'

/-- Characters matched by `[\w-]` (tag characters). -/
def isTagChar (c : Char) : Bool := isWordChar c || c = '-'

/-- Characters matched by `[a-zA-Z0-9-]` (block-id characters). -/
def isIdChar (c : Char) : Bool :=
  ('a' ≤ c && c ≤ 'z') || ('A' ≤ c && c ≤ 'Z') || ('0' ≤ c && c ≤ '9') || c = '-'

/-- Characters matched by `[^\]:]` (field-key characters). -/
def isKeyChar (c : Char) : Bool := !(c = ']') && !(c = ':')

/-- Characters matched by `[^\]]` (field-value characters). -/
def isValChar (c : Char) : Bool := !(c = ']')

/-- JS `String.prototype.trim` (whitespace stripped from both ends). -/
def jsTrim (cs : List Char) : List Char :=
  ((cs.dropWhile isWsChar).reverse.dropWhile isWsChar).reverse

/-- One attempt of the regex `\[([^\]:]+)::([^\]]+)\]` anchored at the
current position: succeeds only when the list starts with a complete field
annotation, returning the raw key, the raw value and the remainder after
the closing bracket. -/
def tryFieldAt (cs : List Char) : Option ((List Char × List Char) × List Char) :=
  match cs with
  | [] => none
  | c :: rest =>
    if c = '[' then
      let k := rest.takeWhile isKeyChar
      if k.isEmpty then none
      else
        match rest.dropWhile isKeyChar with
        | c1 :: c2 :: r2 =>
          if c1 = ':' ∧ c2 = ':' then
            let v := r2.takeWhile isValChar
            if v.isEmpty then none
            else
              match r2.dropWhile isValChar with
              | c3 :: r3 => if c3 = ']' then some ((k, v), r3) else none
              | [] => none
          else none
        | _ => none
    else none

/-- Fueled global scan of `fieldRegex` (`/\[([^\]:]+)::([^\]]+)\]/g`):
collects every non-overlapping match from the left, resuming after each
match and advancing one character after a failed attempt. -/
def fieldScanF : Nat → List Char → List (List Char × List Char)
  | 0, _ => []
  | _ + 1, [] => []
  | fuel + 1, c :: cs =>
    match tryFieldAt (c :: cs) with
    | some (kv, rest) => kv :: fieldScanF fuel rest
    | none => fieldScanF fuel cs

def fieldScan (cs : List Char) : List (List Char × List Char) :=
  fieldScanF cs.length cs

/-- Fueled model of `content.replace(/\[[^\]:]+::[^\]]+\]/g, "")`. -/
def removeFieldsF : Nat → List Char → List Char
  | 0, cs => cs
  | _ + 1, [] => []
  | fuel + 1, c :: cs =>
    match tryFieldAt (c :: cs) with
    | some (_, rest) => removeFieldsF fuel rest
    | none => c :: removeFieldsF fuel cs

def removeFields (cs : List Char) : List Char :=
  removeFieldsF cs.length cs

/-- Fueled global scan of `tagRegex` (`/#([\w-]+)/g`). -/
def tagScanF : Nat → List Char → List (List Char)
  | 0, _ => []
  | _ + 1, [] => []
  | fuel + 1, c :: cs =>
    if c = '#' then
      let t := cs.takeWhile isTagChar
      if t.isEmpty then tagScanF fuel cs
      else t :: tagScanF fuel (cs.drop t.length)
    else tagScanF fuel cs

def tagScan (cs : List Char) : List (List Char) :=
  tagScanF cs.length cs

/-- Fueled model of `content.replace(/#[\w-]+/g, "")`. -/
def removeTagsF : Nat → List Char → List Char
  | 0, cs => cs
  | _ + 1, [] => []
  | fuel + 1, c :: cs =>
    if c = '#' then
      let t := cs.takeWhile isTagChar
      if t.isEmpty then '#' :: removeTagsF fuel cs
      else removeTagsF fuel (cs.drop t.length)
    else c :: removeTagsF fuel cs

def removeTags (cs : List Char) : List Char :=
  removeTagsF cs.length cs

/-- Fueled model of `content.replace(/\s{2,}/g, " ")`: every maximal run of
two or more whitespace characters becomes a single space, single whitespace
characters are kept as they are. -/
def collapseWsF : Nat → List Char → List Char
  | 0, cs => cs
  | _ + 1, [] => []
  | fuel + 1, c :: cs =>
    if isWsChar c then
      let r := cs.takeWhile isWsChar
      if r.isEmpty then c :: collapseWsF fuel cs
      else ' ' :: collapseWsF fuel (cs.drop r.length)
    else c :: collapseWsF fuel cs

def collapseWs (cs : List Char) : List Char :=
  collapseWsF cs.length cs

/-- The regex `\s+\^([a-zA-Z0-9-]+)$` applied to `cs`: when the list ends
with a whitespace run, a caret and a nonempty block-id token (with nothing
after the token), returns the part before the whitespace run together with
the token.  Matching works from the right: the token is the maximal
trailing id-character run and the whitespace run is maximal as well
(leftmost match of the regex). -/
def splitBlockId (cs : List Char) : Option (List Char × List Char) :=
  let rev := cs.reverse
  let tok := rev.takeWhile isIdChar
  if tok.isEmpty then none
  else
    match rev.dropWhile isIdChar with
    | c :: r2 =>
      if c = '^' then
        let w := r2.takeWhile isWsChar
        if w.isEmpty then none
        else some ((r2.dropWhile isWsChar).reverse, tok.reverse)
      else none
    | [] => none

/-- Block id extracted by `parseItem` (`blockIdMatch?.[1]`). -/
def blockIdOf (cs : List Char) : Option (List Char) :=
  (splitBlockId cs).map Prod.snd

/-- `content.replace(/\s+\^[a-zA-Z0-9-]+$/, "")`. -/
def removeBlockId (cs : List Char) : List Char :=
  match splitBlockId cs with
  | some (p, _) => p
  | none => cs

/-- JS object assignment `fields[k] = v`: an existing key keeps its
position and gets the new value, a fresh key is appended at the end. -/
def setField (fs : List (String × String)) (k v : String) : List (String × String) :=
  if fs.any (fun p => p.1 == k) then
    fs.map (fun p => if p.1 == k then (k, v) else p)
  else fs ++ [(k, v)]

/-- The `fields` record built by `parseItem`: every regex match, key and
value trimmed, later occurrences of a key overwriting earlier ones. -/
def fieldsOf (cs : List Char) : List (String × String) :=
  (fieldScan cs).foldl
    (fun fs kv => setField fs (String.mk (jsTrim kv.1)) (String.mk (jsTrim kv.2))) []

/-- JS object spread `{...fs, ...patch}`. -/
def mergeFields (fs patch : List (String × String)) : List (String × String) :=
  patch.foldl (fun a kv => setField a kv.1 kv.2) fs

def lookupField (fs : List (String × String)) (k : String) : Option String :=
  (fs.find? (fun p => p.1 == k)).map Prod.snd

structure KanbanItem where
  lineIndex : Nat
  raw : String
  checked : Bool
  text : String
  blockId : Option String
  fields : List (String × String)
  tags : List String
  laneTitle : String
deriving DecidableEq

/-- Tags of an item line: scanned after stripping field annotations. -/
def itemTags (content : List Char) : List String :=
  (tagScan (removeFields content)).map String.mk

/-- Clean display text of an item line: fields, trailing block id and tags
removed, whitespace runs collapsed, then trimmed. -/
def itemText (content : List Char) : String :=
  String.mk (jsTrim (collapseWs (removeTags (removeBlockId (removeFields content)))))

/-- `parseItem` of kanban.ts.  The line must match
`/^- \[([ x])\] (.+)$/`; `.` does not match a newline and `$` is the end
of the string, hence the content must be nonempty and newline-free. -/
def parseItem (line : String) (lineIndex : Nat) (laneTitle : String) : Option KanbanItem :=
  match line.data with
  | '-' :: ' ' :: '[' :: c :: ']' :: ' ' :: rest =>
    if (c = ' ' || c = 'x') && !rest.isEmpty && rest.all (fun ch => !(ch = '\n')) then
      some { lineIndex := lineIndex, raw := line, checked := c = 'x',
             text := itemText rest,
             blockId := (blockIdOf rest).map String.mk,
             fields := fieldsOf rest,
             tags := itemTags rest,
             laneTitle := laneTitle }
    else none
  | _ => none

/-- Rendering ` [k::v]` for each field, in record order. -/
def renderFields (fs : List (String × String)) : List Char :=
  fs.foldr (fun kv acc =>
    ' ' :: '[' :: (kv.1.data ++ ':' :: ':' :: (kv.2.data ++ ']' :: acc))) []

def renderTagList : List String → List Char
  | [] => []
  | [t] => '#' :: t.data
  | t :: ts => '#' :: t.data ++ ' ' :: renderTagList ts

/-- Rendering `" " + tags.map(t => "#" + t).join(" ")` when nonempty. -/
def renderTags (tags : List String) : List Char :=
  if tags.isEmpty then [] else ' ' :: renderTagList tags

/-- `buildItemLine` of kanban.ts: rebuild an item line from its parsed
components with optional field/tag/checked updates. -/
def buildItemLine (item : KanbanItem) (updFields : List (String × String))
    (updTags : Option (List String)) (updChecked : Option Bool) : String :=
  let checked := updChecked.getD item.checked
  let fields := mergeFields item.fields updFields
  let tags := updTags.getD item.tags
  String.mk ('-' :: ' ' :: '[' :: (if checked then 'x' else ' ') :: ']' :: ' ' :: item.text.data
    ++ renderFields fields ++ renderTags tags
    ++ (match item.blockId with
        | some b => ' ' :: '^' :: b.data
        | none => []))

structure KanbanLane where
  title : String
  startLine : Nat
  endLine : Nat
  items : List KanbanItem
deriving DecidableEq

/-- `line.match(/^## (.+)/)` with the captured title trimmed. -/
def laneHeaderTitle (line : String) : Option String :=
  match line.data with
  | '#' :: '#' :: ' ' :: rest =>
    let t := rest.takeWhile (fun c => !(c = '\n'))
    if t.isEmpty then none else some (String.mk (jsTrim t))
  | _ => none

/-- The lane-building loop of `readBoard`: a header line closes the
current lane at its index and opens a new one; other lines are attempted
as items of the current lane. -/
def readLanesGo (total : Nat) : List String → Nat →
    Option (String × Nat × List KanbanItem) → List KanbanLane → List KanbanLane
  | [], _, cur, acc =>
    match cur with
    | some (t, s, its) => acc ++ [⟨t, s, total, its.reverse⟩]
    | none => acc
  | line :: rest, i, cur, acc =>
    match laneHeaderTitle line with
    | some title =>
      let acc' :=
        match cur with
        | some (t, s, its) => acc ++ [⟨t, s, i, its.reverse⟩]
        | none => acc
      readLanesGo total rest (i + 1) (some (title, i, [])) acc'
    | none =>
      match cur with
      | some (t, s, its) =>
        match parseItem line i t with
        | some item => readLanesGo total rest (i + 1) (some (t, s, item :: its)) acc
        | none => readLanesGo total rest (i + 1) cur acc
      | none => readLanesGo total rest (i + 1) none acc

def readLanes (lines : List String) : List KanbanLane :=
  readLanesGo lines.length lines 0 none []

def findItemById (lanes : List KanbanLane) (bid : String) : Option KanbanItem :=
  lanes.findSome? (fun l => l.items.find? (fun it => it.blockId == some bid))

/-- ASCII model of JS `toLowerCase`. -/
def jsToLower (c : Char) : Char :=
  if 'A' ≤ c && c ≤ 'Z' then Char.ofNat (c.toNat + 32) else c

def lowerStr (s : String) : String := String.mk (s.data.map jsToLower)

def findLane (lanes : List KanbanLane) (t : String) : Option KanbanLane :=
  lanes.find? (fun l => lowerStr l.title == lowerStr t)

/-- `line.match(/^- \[/)`. -/
def itemStart (line : String) : Bool :=
  match line.data with
  | '-' :: ' ' :: '[' :: _ => true
  | _ => false

/-- `line.match(/^## /)`. -/
def headerStart (line : String) : Bool :=
  match line.data with
  | '#' :: '#' :: ' ' :: _ => true
  | _ => false

/-- The loop of `findInsertionPoint`, fueled by the number of remaining
iterations: at index `i` an item line moves the result to `i + 1`, a lane
header breaks, anything else is skipped. -/
def fipGo (lines : List String) : Nat → Nat → Nat → Nat
  | 0, _, last => last
  | fuel + 1, i, last =>
    if itemStart (lines.getD i "") then fipGo lines fuel (i + 1) (i + 1)
    else if headerStart (lines.getD i "") then last
    else fipGo lines fuel (i + 1) last

/-- `findInsertionPoint` of kanban.ts: scan `[laneStart + 1, min laneEnd
lines.length)` and return one past the last item line, defaulting to
`laneStart + 1`. -/
def findInsertionPoint (lines : List String) (laneStart laneEnd : Nat) : Nat :=
  fipGo lines (min laneEnd lines.length - (laneStart + 1)) (laneStart + 1) (laneStart + 1)

/-- JS `splice(i, 1)`. -/
def spliceRemove (l : List α) (i : Nat) : List α :=
  l.take i ++ l.drop (i + 1)

/-- JS `splice(i, 0, a)` (an index past the end appends at the end). -/
def spliceInsert (l : List α) (i : Nat) (a : α) : List α :=
  l.take i ++ a :: l.drop i

/-- `moveItem` of kanban.ts after the target lane has been resolved:
remove the old line, decrement the lane bounds when the removed index was
before the lane header, then splice the new line at the insertion point. -/
def moveItemLines (lines : List String) (itemIdx : Nat) (lane : KanbanLane)
    (newLine : String) : List String :=
  let removed := spliceRemove lines itemIdx
  let insertIdx :=
    if itemIdx < lane.startLine then
      findInsertionPoint removed (lane.startLine - 1) (lane.endLine - 1)
    else
      findInsertionPoint removed lane.startLine lane.endLine
  spliceInsert removed insertIdx newLine

def STATUS_TAGS : List String := ["in-progress", "blocked", "complete", "failed"]

/-- `updateStatusTags` of kanban.ts. -/
def updateStatusTags (tags : List String) (status : String) : List String :=
  let filtered := tags.filter (fun t => !(STATUS_TAGS.contains t))
  let tagName := if status = "complete" then "complete" else status
  if STATUS_TAGS.contains tagName then filtered ++ [tagName] else filtered

inductive KError where
  | ItemNotFound
  | LaneNotFound
  | AlreadyClaimed
deriving DecidableEq

/-- `cmdUpdate`: locate the item, merge `{status}` (and `note` when
given), recompute status tags, rebuild the line in place. -/
def cmdUpdateE (lines : List String) (bid status : String) (note : Option String) :
    Except KError (List String) :=
  let lanes := readLanes lines
  match findItemById lanes bid with
  | none => .error .ItemNotFound
  | some item =>
    let newFields := ("status", status) ::
      (match note with
       | some n => [("note", n)]
       | none => [])
    let newTags := updateStatusTags item.tags status
    let newLine := buildItemLine item newFields (some newTags) none
    .ok (lines.set item.lineIndex newLine)

/-- `cmdClaim`: fails when the item is missing, when its `agent` field is
a nonempty string, or when the board has no `In Progress` lane; otherwise
moves the rebuilt line there.  `today` stands for the current date. -/
def cmdClaimE (lines : List String) (bid agentName today : String) :
    Except KError (List String) :=
  let lanes := readLanes lines
  match findItemById lanes bid with
  | none => .error .ItemNotFound
  | some item =>
    if !((lookupField item.fields "agent").getD "").isEmpty then .error .AlreadyClaimed
    else
      let newFields := [("agent", agentName), ("status", "in-progress"), ("claimed_at", today)]
      let newTags := updateStatusTags item.tags "in-progress"
      let newLine := buildItemLine item newFields (some newTags) none
      match findLane lanes "In Progress" with
      | none => .error .LaneNotFound
      | some lane => .ok (moveItemLines lines item.lineIndex lane newLine)

/-- `cmdComplete`: mark done (checked, status/tag `complete`) and move to
the `Done` lane. -/
def cmdCompleteE (lines : List String) (bid today : String) :
    Except KError (List String) :=
  let lanes := readLanes lines
  match findItemById lanes bid with
  | none => .error .ItemNotFound
  | some item =>
    let newFields := [("status", "complete"), ("completed_at", today)]
    let newTags := updateStatusTags item.tags "complete"
    let newLine := buildItemLine item newFields (some newTags) (some true)
    match findLane lanes "Done" with
    | none => .error .LaneNotFound
    | some lane => .ok (moveItemLines lines item.lineIndex lane newLine)

/-- `cmdFail`: status/tag `failed` (plus optional `reason`), move to the
`Failed` lane. -/
def cmdFailE (lines : List String) (bid : String) (reason : Option String) :
    Except KError (List String) :=
  let lanes := readLanes lines
  match findItemById lanes bid with
  | none => .error .ItemNotFound
  | some item =>
    let newFields := ("status", "failed") ::
      (match reason with
       | some r => [("reason", r)]
       | none => [])
    let newTags := updateStatusTags item.tags "failed"
    let newLine := buildItemLine item newFields (some newTags) none
    match findLane lanes "Failed" with
    | none => .error .LaneNotFound
    | some lane => .ok (moveItemLines lines item.lineIndex lane newLine)

/-- `cmdAddTask`: build a fresh unchecked line carrying the given fields,
the `#agent-task` marker and the generated id `bid`, and splice it at the
lane's insertion point.  The generated id is an oracle parameter. -/
def cmdAddTaskE (lines : List String) (title laneName : String)
    (priority : Option String) (fieldsArg : List (String × String)) (bid : String) :
    Except KError (List String) :=
  let lanes := readLanes lines
  match findLane lanes laneName with
  | none => .error .LaneNotFound
  | some lane =>
    let fields := mergeFields fieldsArg
      (match priority with
       | some p => [("priority", p)]
       | none => [])
    let line := "- [ ] " ++ title ++ String.mk (renderFields fields) ++ " #agent-task ^" ++ bid
    let insertIdx := findInsertionPoint lines lane.startLine lane.endLine
    .ok (spliceInsert lines insertIdx line)

/-- The file content observed after a command: on failure nothing is
written, so the document keeps its previous lines. -/
def applyResult (lines : List String) (r : Except KError (List String)) : List String :=
  match r with
  | .ok l => l
  | .error _ => lines

/-- The line produced for an item by one `update` invocation (the
`buildItemLine` call of `cmdUpdate`). -/
def updateLine (item : KanbanItem) (status : String) (note : Option String) : String :=
  buildItemLine item
    (("status", status) ::
      (match note with
       | some n => [("note", n)]
       | none => []))
    (some (updateStatusTags item.tags status)) none

/-- `content.replace(/\n$/, "")`: drop exactly one trailing newline. -/
def dropTrailingNewline (cs : List Char) : List Char :=
  if cs.getLast? = some '\n' then cs.dropLast else cs

/-- JS `split("\n")`. -/
def splitNl : List Char → List (List Char)
  | [] => [[]]
  | c :: cs =>
    if c = '\n' then [] :: splitNl cs
    else
      match splitNl cs with
      | [] => [[c]]
      | l :: ls => (c :: l) :: ls

/-- `join("\n")`. -/
def joinNl : List (List Char) → List Char
  | [] => []
  | [l] => l
  | l :: ls => l ++ '\n' :: joinNl ls

structure KanbanBoard where
  lanes : List KanbanLane
  rawLines : List String

/-- `readBoard` on document text: split into lines (dropping one trailing
newline) and build the lane model. -/
def readBoard (cs : List Char) : KanbanBoard :=
  let ls := (splitNl (dropTrailingNewline cs)).map String.mk
  ⟨readLanes ls, ls⟩

/-- `writeBoard`: join the line buffer with newlines and append exactly
one trailing newline. -/
def writeBoard (b : KanbanBoard) : List Char :=
  joinNl (b.rawLines.map String.data) ++ ['\n']

/-- JS `String.prototype.replace` with a string pattern: replace the first
occurrence only (the empty document edge case is irrelevant here since the
pattern used is `".md"`). -/
def listReplaceFirst (pat rep : List Char) : List Char → List Char
  | [] => []
  | c :: cs =>
    if pat.isPrefixOf (c :: cs) then rep ++ (c :: cs).drop pat.length
    else c :: listReplaceFirst pat rep cs

def strReplaceFirst (s pat rep : String) : String :=
  String.mk (listReplaceFirst pat.data rep.data s.data)

/-- Candidate archive name for a given counter:
`archiveFile.replace(".md", "-" + counter + ".md")`. -/
def archiveCandidate (base : String) (counter : Nat) : String :=
  strReplaceFirst base ".md" ("-" ++ toString counter ++ ".md")

/-- The collision-probing loop of `OncallCLI.end`: while the candidate
exists, increment the counter and derive the next candidate.  `existsB` is
the filesystem-existence oracle; `fuel` bounds the number of iterations
(the JS loop is unbounded). -/
def probeArchiveGo (existsB : String → Bool) (base : String) :
    Nat → Nat → String → Option String
  | 0, _, _ => none
  | fuel + 1, counter, path =>
    if existsB path then
      probeArchiveGo existsB base fuel (counter + 1) (archiveCandidate base (counter + 1))
    else some path

def probeArchive (existsB : String → Bool) (base : String) (fuel : Nat) : Option String :=
  probeArchiveGo existsB base fuel 1 base

/-! Well-formedness predicates used to state the round-trip properties of
`buildItemLine`/`parseItem`.  They describe the shapes that survive the
regex grammar of kanban.ts unchanged. -/

/-- No two adjacent whitespace characters (stability under `\s{2,}`
collapsing). -/
def noTwoWs : List Char → Bool
  | [] => true
  | [_] => true
  | a :: b :: rest => !(isWsChar a && isWsChar b) && noTwoWs (b :: rest)

def headNotWs (cs : List Char) : Bool :=
  match cs.head? with
  | none => true
  | some c => !isWsChar c

def lastNotWs (cs : List Char) : Bool :=
  match cs.getLast? with
  | none => true
  | some c => !isWsChar c

/-- A field key that the grammar reproduces: nonempty, no `]`/`:`, no
newline, already trimmed. -/
def wfKey (k : String) : Bool :=
  !k.data.isEmpty && k.data.all isKeyChar && k.data.all (fun c => !(c = '\n')) &&
    headNotWs k.data && lastNotWs k.data

/-- A field value that the grammar reproduces: nonempty, no `]`, no
newline, already trimmed. -/
def wfVal (v : String) : Bool :=
  !v.data.isEmpty && v.data.all (fun c => !(c = ']') && !(c = '\n')) &&
    headNotWs v.data && lastNotWs v.data

def wfTag (t : String) : Bool := !t.data.isEmpty && t.data.all isTagChar

def wfId (b : String) : Bool := !b.data.isEmpty && b.data.all isIdChar

/-- A display text that the grammar reproduces: no `[`, `#` or newline,
trimmed, no adjacent whitespace pair. -/
def wfText (t : String) : Bool :=
  t.data.all (fun c => !(c = '[') && !(c = '#') && !(c = '\n')) &&
    headNotWs t.data && lastNotWs t.data && noTwoWs t.data

/-- Items whose components are all reproduced by parse-after-rebuild.  The
update counterexample shows that parsed items can fall outside this set
(their text may contain `[`). -/
def ValidItem (it : KanbanItem) : Prop :=
  wfText it.text = true ∧
  it.fields.all (fun kv => wfKey kv.1 && wfVal kv.2) = true ∧
  (it.fields.map Prod.fst).Nodup ∧
  it.tags.all wfTag = true ∧
  it.blockId.map wfId = some true

/-! ### Serialization round trip (C3) -/

theorem splitNl_ne_nil (cs : List Char) : splitNl cs ≠ [] := by
  cases cs with
  | nil => simp [splitNl]
  | cons c cs =>
    by_cases h : c = '\n'
    · simp [splitNl, h]
    · simp only [splitNl, if_neg h]
      cases hs : splitNl cs <;> simp

theorem joinNl_cons_of_ne_nil (l : List Char) (ls : List (List Char)) (h : ls ≠ []) :
    joinNl (l :: ls) = l ++ '\n' :: joinNl ls := by
  cases ls with
  | nil => exact absurd rfl h
  | cons x xs => rfl

theorem joinNl_splitNl (cs : List Char) : joinNl (splitNl cs) = cs := by
  induction cs with
  | nil => rfl
  | cons c cs ih =>
    by_cases h : c = '\n'
    · subst h
      rw [show splitNl ('\n' :: cs) = [] :: splitNl cs from rfl]
      rw [joinNl_cons_of_ne_nil _ _ (splitNl_ne_nil cs), ih]
      rfl
    · simp only [splitNl, if_neg h]
      cases hs : splitNl cs with
      | nil => exact absurd hs (splitNl_ne_nil cs)
      | cons l ls =>
        rw [hs] at ih
        cases ls with
        | nil => simpa [joinNl] using ih
        | cons y ys =>
          rw [joinNl_cons_of_ne_nil _ _ (by simp)]
          rw [joinNl_cons_of_ne_nil _ _ (by simp)] at ih
          simpa using ih

/-- C3: parsing a document with `readBoard` and serializing the unmutated
line buffer with `writeBoard` reproduces the original text when it already
ends with a newline, and otherwise appends exactly one trailing newline —
i.e. the only difference is the trailing-newline normalization. -/
theorem readBoard_writeBoard_round_trip (cs : List Char) :
    writeBoard (readBoard cs) =
      if cs.getLast? = some '\n' then cs else cs ++ ['\n'] := by
  have hmaps : ∀ ls : List (List Char), (ls.map String.mk).map String.data = ls := by
    intro ls
    rw [List.map_map]
    exact List.map_id'' (fun l => rfl) ls
  have hwr : writeBoard (readBoard cs) = dropTrailingNewline cs ++ ['\n'] := by
    show joinNl (((splitNl (dropTrailingNewline cs)).map String.mk).map String.data) ++ ['\n'] =
      dropTrailingNewline cs ++ ['\n']
    rw [hmaps, joinNl_splitNl]
  rw [hwr]
  rcases List.eq_nil_or_concat cs with rfl | ⟨ys, y, rfl⟩
  · simp [dropTrailingNewline]
  · by_cases hy : y = '\n'
    · subst hy
      simp [dropTrailingNewline]
    · have hl : (ys ++ [y]).getLast? = some y := by simp
      simp [dropTrailingNewline, hl, hy]

/-! ### Status tags and the status field (C10) -/

theorem lookupField_setField (fs : List (String × String)) (k v : String) :
    lookupField (setField fs k v) k = some v := by
  unfold setField
  by_cases h : fs.any (fun p => p.1 == k)
  · rw [if_pos h]
    induction fs with
    | nil => simp at h
    | cons p fs ih =>
      by_cases hp : p.1 == k
      · simp [lookupField, List.find?, hp]
      · have h' : fs.any (fun q => q.1 == k) := by
          simpa [List.any_cons, hp] using h
        simp only [List.map_cons, if_neg hp]
        rw [lookupField] at ih ⊢
        simpa [List.find?, hp] using ih h'
  · rw [if_neg h]
    induction fs with
    | nil => simp [lookupField, List.find?]
    | cons p fs ih =>
      have hp : (p.1 == k) = false := by
        by_contra hc
        exact h (by simp [List.any_cons, eq_true_of_ne_false hc])
      have h' : ¬ fs.any (fun q => q.1 == k) := by
        intro hc
        exact h (by simp [List.any_cons, hc])
      rw [lookupField] at ih ⊢
      simpa [List.find?, hp] using ih h'

/-- C10: for any status string, `updateStatusTags` removes every tag of
the fixed status vocabulary from the tag list, keeping the other tags in
their original order, and appends the status as a tag exactly when it
belongs to the vocabulary (so an out-of-vocabulary status adds no tag);
the `status` field itself is always written by the update's field merge. -/
theorem updateStatusTags_spec (tags : List String) (status : String)
    (fs : List (String × String)) :
    updateStatusTags tags status =
      tags.filter (fun t => !(STATUS_TAGS.contains t)) ++
        (if STATUS_TAGS.contains status then [status] else []) ∧
    lookupField (mergeFields fs [("status", status)]) "status" = some status := by
  constructor
  · unfold updateStatusTags
    have hname : (if status = "complete" then "complete" else status) = status := by
      split
      · exact (by assumption : status = "complete").symm
      · rfl
    rw [hname]
    split <;> simp_all
  · show lookupField (setField fs "status" status) "status" = some status
    exact lookupField_setField fs "status" status

/-! ### Update is not idempotent in general (C6 counterexample) -/

/-- C6 counterexample: on the item line `- [ ] xx [a ^id` (whose display
text contains `[a`), running `update --status blocked` twice produces two
different lines: the second run re-parses `[a [status::blocked]` as a
field annotation with key `a [status` and appends a second
`[status::blocked]` annotation. -/
theorem update_twice_differs :
    cmdUpdateE ["## Ready", "- [ ] xx [a ^id"] "id" "blocked" none =
      Except.ok ["## Ready", "- [ ] xx [a [status::blocked] #blocked ^id"] ∧
    cmdUpdateE ["## Ready", "- [ ] xx [a [status::blocked] #blocked ^id"] "id" "blocked" none =
      Except.ok ["## Ready", "- [ ] xx [a [status::blocked] [status::blocked] #blocked ^id"] ∧
    ["## Ready", "- [ ] xx [a [status::blocked] #blocked ^id"] ≠
      ["## Ready", "- [ ] xx [a [status::blocked] [status::blocked] #blocked ^id"] := by
  refine ⟨by rfl, by rfl, by decide⟩

/-! ### No collision check in add-task; the archive probe is fresh (C7) -/

/-- C7 counterexample: `add-task` performs no collision check on the
generated id.  On a board that already contains `^abc`, adding a task
whose generated id is `abc` succeeds and writes a second `^abc` item, so
the board ends up with two items carrying the same block id. -/
theorem addTask_writes_colliding_id :
    (findItemById (readLanes ["## Backlog", "- [ ] old #agent-task ^abc"]) "abc").isSome = true ∧
    cmdAddTaskE ["## Backlog", "- [ ] old #agent-task ^abc"] "New task" "Backlog" none [] "abc" =
      Except.ok ["## Backlog", "- [ ] old #agent-task ^abc", "- [ ] New task #agent-task ^abc"] ∧
    ((readLanes ["## Backlog", "- [ ] old #agent-task ^abc", "- [ ] New task #agent-task ^abc"]).foldl
        (fun n l => n + (l.items.filter (fun it => it.blockId == some "abc")).length) 0) = 2 := by
  refine ⟨by rfl, by rfl, by rfl⟩

/-- C7 (amended): the shift-archive probing loop never returns a name that
exists in the target collection at call time: whenever it returns a path,
the existence oracle is false on it.  (The uniqueness-by-probing half of
the claim; `add-task` itself performs no collision check, as the
counterexample shows.) -/
theorem probeArchive_fresh (existsB : String → Bool) (base : String) :
    ∀ (fuel counter : Nat) (path p : String),
      probeArchiveGo existsB base fuel counter path = some p → existsB p = false := by
  intro fuel
  induction fuel with
  | zero => intro counter path p h; simp [probeArchiveGo] at h
  | succ fuel ih =>
    intro counter path p h
    rw [probeArchiveGo] at h
    by_cases he : existsB path
    · rw [if_pos he] at h
      exact ih _ _ _ h
    · rw [if_neg he] at h
      cases h
      simpa using he

theorem probeArchive_fresh_witness :
    probeArchive (fun s => s == "log.md" || s == "log-2.md") "log.md" 5 = some "log-3.md" ∧
    (fun s => s == "log.md" || s == "log-2.md") "log-3.md" = false := by
  refine ⟨by rfl, ?_⟩
  exact probeArchive_fresh (fun s => s == "log.md" || s == "log-2.md") "log.md" 5 1
    "log.md" "log-3.md" (by rfl)

/-! ### Trailing-whitespace block id lines (C9 counterexample) -/

/-- C9 counterexample: on the line `- [ ] task ^abc ` (final caret token
followed by one trailing space) `parseItem` succeeds but extracts no block
id, because `\s+\^([a-zA-Z0-9-]+)$` requires the token to sit at the very
end of the line; no trailing whitespace is trimmed first. -/
theorem parseItem_trailing_space_no_blockId :
    Option.map KanbanItem.blockId (parseItem "- [ ] task ^abc " 0 "Ready") = some none := by
  rfl

/-! ### Insertion points stay inside the lane (C2) -/

theorem spliceInsert_getElem_self {l : List α} {r : Nat} (a : α) (hr : r ≤ l.length) :
    (spliceInsert l r a)[r]? = some a := by
  unfold spliceInsert
  have hlen : (l.take r).length = r := by simp [Nat.min_eq_left hr]
  rw [List.getElem?_append_right (by omega)]
  simp [hlen]

theorem spliceInsert_getElem_ge {l : List α} {r j : Nat} (a : α) (hr : r ≤ l.length)
    (hj : r ≤ j) : (spliceInsert l r a)[j + 1]? = l[j]? := by
  unfold spliceInsert
  have hlen : (l.take r).length = r := by simp [Nat.min_eq_left hr]
  rw [List.getElem?_append_right (by omega)]
  rw [hlen]
  have : j + 1 - r = (j - r) + 1 := by omega
  rw [this, List.getElem?_cons_succ, List.getElem?_drop]
  congr 1
  omega

theorem fipGo_spec (lines : List String) (laneStart : Nat) :
    ∀ (fuel i last : Nat),
      laneStart + 1 ≤ last → last ≤ i →
      (∀ j, i ≤ j → j < i + fuel → headerStart (lines.getD j "") = false) →
      (last = laneStart + 1 ∨ itemStart (lines.getD (last - 1) "") = true) →
      (∀ j, last ≤ j → j < i → itemStart (lines.getD j "") = false) →
      laneStart + 1 ≤ fipGo lines fuel i last ∧
      fipGo lines fuel i last ≤ i + fuel ∧
      (fipGo lines fuel i last = laneStart + 1 ∨
        itemStart (lines.getD (fipGo lines fuel i last - 1) "") = true) ∧
      (∀ j, fipGo lines fuel i last ≤ j → j < i + fuel →
        itemStart (lines.getD j "") = false) := by
  intro fuel
  induction fuel with
  | zero =>
    intro i last h1 h2 _ h4 h5
    rw [fipGo]
    exact ⟨h1, by omega, h4, fun j hj hj2 => h5 j hj (by omega)⟩
  | succ fuel ih =>
    intro i last h1 h2 h3 h4 h5
    rw [fipGo]
    by_cases hit : itemStart (lines.getD i "") = true
    · rw [if_pos hit]
      have := ih (i + 1) (i + 1) (by omega) (le_refl _)
        (fun j hj hj2 => h3 j (by omega) (by omega))
        (Or.inr (by simpa using hit))
        (fun j hj hj2 => False.elim (by omega))
      exact ⟨this.1, by omega, this.2.2.1, fun j hj hj2 => this.2.2.2 j hj (by omega)⟩
    · rw [if_neg hit]
      have hhd : headerStart (lines.getD i "") = false := h3 i (le_refl _) (by omega)
      rw [if_neg (by rw [hhd]; exact Bool.false_ne_true)]
      have := ih (i + 1) last h1 (by omega)
        (fun j hj hj2 => h3 j (by omega) (by omega)) h4
        (fun j hj hj2 => by
          rcases Nat.lt_or_ge j i with hji | hji
          · exact h5 j hj hji
          · have : j = i := by omega
            subst this
            simpa using hit)
      exact ⟨this.1, by omega, this.2.2.1, fun j hj hj2 => this.2.2.2 j hj (by omega)⟩

/-- C2: for a lane range `[laneStart, laneEnd)` whose interior contains no
lane-header line (as is the case for every lane built by `readBoard`), the
insertion point is at least one past the lane header and at most
`laneEnd`; it equals `laneStart + 1` when the lane has no item lines; no
item line of the lane lies at or after it (it is one past the last item
line, and points right past an item line whenever the lane has one); and
splicing a new line there leaves it at index `r` while every line from
`laneEnd` on (the subsequent lane headers in particular) moves one index
later — so the inserted line never lands at or past a subsequent lane
header. -/
theorem findInsertionPoint_spec (lines : List String) (laneStart laneEnd : Nat) (nl : String)
    (h1 : laneStart < laneEnd) (h2 : laneEnd ≤ lines.length)
    (hnh : ∀ j < laneEnd, laneStart < j → headerStart (lines.getD j "") = false) :
    (laneStart + 1 ≤ findInsertionPoint lines laneStart laneEnd ∧
      findInsertionPoint lines laneStart laneEnd ≤ laneEnd) ∧
    ((∀ j < laneEnd, laneStart < j → itemStart (lines.getD j "") = false) →
      findInsertionPoint lines laneStart laneEnd = laneStart + 1) ∧
    (∀ j < laneEnd, findInsertionPoint lines laneStart laneEnd ≤ j →
      itemStart (lines.getD j "") = false) ∧
    (laneStart + 1 < findInsertionPoint lines laneStart laneEnd →
      itemStart (lines.getD (findInsertionPoint lines laneStart laneEnd - 1) "") = true) ∧
    (spliceInsert lines (findInsertionPoint lines laneStart laneEnd) nl)[
      findInsertionPoint lines laneStart laneEnd]? = some nl ∧
    (∀ j, laneEnd ≤ j →
      (spliceInsert lines (findInsertionPoint lines laneStart laneEnd) nl)[j + 1]? =
        lines[j]?) := by
  have hmin : min laneEnd lines.length = laneEnd := Nat.min_eq_left h2
  have hfuel : laneStart + 1 + (min laneEnd lines.length - (laneStart + 1)) = laneEnd := by
    omega
  have hspec := fipGo_spec lines laneStart (min laneEnd lines.length - (laneStart + 1))
    (laneStart + 1) (laneStart + 1) (le_refl _) (le_refl _)
    (fun j hj hj2 => hnh j (by omega) (by omega))
    (Or.inl rfl)
    (fun j hj hj2 => False.elim (by omega))
  rw [hfuel] at hspec
  rw [show fipGo lines (min laneEnd lines.length - (laneStart + 1)) (laneStart + 1)
      (laneStart + 1) = findInsertionPoint lines laneStart laneEnd from rfl] at hspec
  have hr1 : laneStart + 1 ≤ findInsertionPoint lines laneStart laneEnd := hspec.1
  have hr2 : findInsertionPoint lines laneStart laneEnd ≤ laneEnd := hspec.2.1
  refine ⟨⟨hr1, hr2⟩, ?_, ?_, ?_, ?_, ?_⟩
  · intro hno
    rcases hspec.2.2.1 with h | h
    · exact h
    · by_contra hne
      have hgt : laneStart + 1 < findInsertionPoint lines laneStart laneEnd := by omega
      have hlt : findInsertionPoint lines laneStart laneEnd - 1 < laneEnd := by omega
      have := hno (findInsertionPoint lines laneStart laneEnd - 1) hlt (by omega)
      rw [this] at h
      exact Bool.noConfusion h
  · intro j hj hj2
    exact hspec.2.2.2 j hj2 hj
  · intro hgt
    rcases hspec.2.2.1 with h | h
    · omega
    · exact h
  · exact spliceInsert_getElem_self nl (le_trans hr2 h2)
  · intro j hj
    exact spliceInsert_getElem_ge nl (le_trans hr2 h2) (by omega)

theorem findInsertionPoint_spec_witness :
    (0 + 1 ≤ findInsertionPoint ["## A", "- [ ] x", "", "- [ ] y", "## B", "- [ ] z"] 0 4 ∧
      findInsertionPoint ["## A", "- [ ] x", "", "- [ ] y", "## B", "- [ ] z"] 0 4 ≤ 4) ∧
    (spliceInsert ["## A", "- [ ] x", "", "- [ ] y", "## B", "- [ ] z"]
        (findInsertionPoint ["## A", "- [ ] x", "", "- [ ] y", "## B", "- [ ] z"] 0 4)
        "- [ ] new")[4 + 1]? =
      ["## A", "- [ ] x", "", "- [ ] y", "## B", "- [ ] z"][4]? := by
  have h := findInsertionPoint_spec ["## A", "- [ ] x", "", "- [ ] y", "## B", "- [ ] z"]
    0 4 "- [ ] new" (by decide) (by decide) (by decide)
  exact ⟨h.1, h.2.2.2.2.2 4 (le_refl 4)⟩

/-! ### Lane-bound adjustment in moveItem (C1) -/

theorem spliceRemove_getElem_gt {l : List α} {i j : Nat} (hij : i < j) :
    (spliceRemove l i)[j - 1]? = l[j]? := by
  unfold spliceRemove
  rcases le_or_lt i l.length with hi | hi
  · have hlen : (l.take i).length = i := by simp [Nat.min_eq_left hi]
    rw [List.getElem?_append_right (by omega)]
    rw [hlen, List.getElem?_drop]
    congr 1
    omega
  · have htake : l.take i = l := List.take_of_length_le (by omega)
    have hdrop : l.drop (i + 1) = [] := List.drop_eq_nil_of_le (by omega)
    rw [htake, hdrop, List.append_nil]
    have h1 : l[j - 1]? = none := List.getElem?_eq_none (by omega)
    have h2 : l[j]? = none := List.getElem?_eq_none (by omega)
    rw [h1, h2]

/-- C1: `moveItem` first deletes the item's line; exactly when the deleted
index was strictly before the target lane's `startLine`, both lane bounds
are decremented by one before the insertion point is computed (otherwise
the bounds are used as they are); the rebuilt line is then spliced at that
insertion point.  The decrement is the right compensation: after the
removal, every line from an index `j` past the deleted one sits at
`j - 1`, so the decremented range addresses exactly the original lane
lines. -/
theorem moveItem_adjusts_bounds_iff_before (lines : List String) (i : Nat)
    (lane : KanbanLane) (nl : String) :
    (i < lane.startLine →
      moveItemLines lines i lane nl =
        spliceInsert (spliceRemove lines i)
          (findInsertionPoint (spliceRemove lines i) (lane.startLine - 1) (lane.endLine - 1))
          nl ∧
      (∀ j, i < j → (spliceRemove lines i)[j - 1]? = lines[j]?)) ∧
    (lane.startLine ≤ i →
      moveItemLines lines i lane nl =
        spliceInsert (spliceRemove lines i)
          (findInsertionPoint (spliceRemove lines i) lane.startLine lane.endLine) nl) := by
  constructor
  · intro h
    constructor
    · simp only [moveItemLines, if_pos h]
    · intro j hj
      exact spliceRemove_getElem_gt hj
  · intro h
    have h' : ¬ i < lane.startLine := by omega
    simp only [moveItemLines, if_neg h']

theorem moveItem_adjusts_bounds_witness :
    moveItemLines ["- [ ] m ^z", "## A", "- [ ] x", "## B"] 0 ⟨"B", 3, 4, []⟩ "- [x] m ^z" =
      spliceInsert (spliceRemove ["- [ ] m ^z", "## A", "- [ ] x", "## B"] 0)
        (findInsertionPoint (spliceRemove ["- [ ] m ^z", "## A", "- [ ] x", "## B"] 0)
          (3 - 1) (4 - 1)) "- [x] m ^z" ∧
    (spliceRemove ["- [ ] m ^z", "## A", "- [ ] x", "## B"] 0)[3 - 1]? =
      ["- [ ] m ^z", "## A", "- [ ] x", "## B"][3]? := by
  have h := (moveItem_adjusts_bounds_iff_before ["- [ ] m ^z", "## A", "- [ ] x", "## B"]
    0 ⟨"B", 3, 4, []⟩ "- [x] m ^z").1 (by decide)
  exact ⟨h.1, h.2 3 (by decide)⟩

/-! ### Failed validation writes nothing (C4) -/

/-- C4: every failing validation path of claim/update/complete/fail/
add-task returns the corresponding error without producing a new line
buffer, so the observed file content (`applyResult`) is exactly the
previous one: a missing block id fails with `ItemNotFound`, a missing
target lane with `LaneNotFound`, and a claim on an item whose `agent`
field is a nonempty string with `AlreadyClaimed`. -/
theorem failed_validation_writes_nothing (lines : List String)
    (bid agent today status title laneName : String)
    (note reason priority : Option String)
    (fieldsArg : List (String × String)) (gid : String) :
    (findItemById (readLanes lines) bid = none →
      cmdUpdateE lines bid status note = Except.error KError.ItemNotFound ∧
      applyResult lines (cmdUpdateE lines bid status note) = lines) ∧
    (findItemById (readLanes lines) bid = none →
      cmdClaimE lines bid agent today = Except.error KError.ItemNotFound ∧
      applyResult lines (cmdClaimE lines bid agent today) = lines) ∧
    (∀ it, findItemById (readLanes lines) bid = some it →
      ((lookupField it.fields "agent").getD "").isEmpty = false →
      cmdClaimE lines bid agent today = Except.error KError.AlreadyClaimed ∧
      applyResult lines (cmdClaimE lines bid agent today) = lines) ∧
    (∀ it, findItemById (readLanes lines) bid = some it →
      ((lookupField it.fields "agent").getD "").isEmpty = true →
      findLane (readLanes lines) "In Progress" = none →
      cmdClaimE lines bid agent today = Except.error KError.LaneNotFound ∧
      applyResult lines (cmdClaimE lines bid agent today) = lines) ∧
    (findItemById (readLanes lines) bid = none →
      cmdCompleteE lines bid today = Except.error KError.ItemNotFound ∧
      applyResult lines (cmdCompleteE lines bid today) = lines) ∧
    (∀ it, findItemById (readLanes lines) bid = some it →
      findLane (readLanes lines) "Done" = none →
      cmdCompleteE lines bid today = Except.error KError.LaneNotFound ∧
      applyResult lines (cmdCompleteE lines bid today) = lines) ∧
    (findItemById (readLanes lines) bid = none →
      cmdFailE lines bid reason = Except.error KError.ItemNotFound ∧
      applyResult lines (cmdFailE lines bid reason) = lines) ∧
    (∀ it, findItemById (readLanes lines) bid = some it →
      findLane (readLanes lines) "Failed" = none →
      cmdFailE lines bid reason = Except.error KError.LaneNotFound ∧
      applyResult lines (cmdFailE lines bid reason) = lines) ∧
    (findLane (readLanes lines) laneName = none →
      cmdAddTaskE lines title laneName priority fieldsArg gid =
        Except.error KError.LaneNotFound ∧
      applyResult lines (cmdAddTaskE lines title laneName priority fieldsArg gid) = lines) := by
  refine ⟨?_, ?_, ?_, ?_, ?_, ?_, ?_, ?_, ?_⟩
  · intro h
    have he : cmdUpdateE lines bid status note = Except.error KError.ItemNotFound := by
      simp [cmdUpdateE, h]
    exact ⟨he, by rw [he]; rfl⟩
  · intro h
    have he : cmdClaimE lines bid agent today = Except.error KError.ItemNotFound := by
      simp [cmdClaimE, h]
    exact ⟨he, by rw [he]; rfl⟩
  · intro it h hag
    have he : cmdClaimE lines bid agent today = Except.error KError.AlreadyClaimed := by
      simp [cmdClaimE, h, hag]
    exact ⟨he, by rw [he]; rfl⟩
  · intro it h hag hl
    have he : cmdClaimE lines bid agent today = Except.error KError.LaneNotFound := by
      simp [cmdClaimE, h, hag, hl]
    exact ⟨he, by rw [he]; rfl⟩
  · intro h
    have he : cmdCompleteE lines bid today = Except.error KError.ItemNotFound := by
      simp [cmdCompleteE, h]
    exact ⟨he, by rw [he]; rfl⟩
  · intro it h hl
    have he : cmdCompleteE lines bid today = Except.error KError.LaneNotFound := by
      simp [cmdCompleteE, h, hl]
    exact ⟨he, by rw [he]; rfl⟩
  · intro h
    have he : cmdFailE lines bid reason = Except.error KError.ItemNotFound := by
      simp [cmdFailE, h]
    exact ⟨he, by rw [he]; rfl⟩
  · intro it h hl
    have he : cmdFailE lines bid reason = Except.error KError.LaneNotFound := by
      simp [cmdFailE, h, hl]
    exact ⟨he, by rw [he]; rfl⟩
  · intro h
    have he : cmdAddTaskE lines title laneName priority fieldsArg gid =
        Except.error KError.LaneNotFound := by
      simp [cmdAddTaskE, h]
    exact ⟨he, by rw [he]; rfl⟩

theorem failed_validation_witness :
    (cmdUpdateE ["## Ready", "- [ ] a [agent::bob] ^x1", "- [ ] b ^x2"] "zz" "blocked" none =
      Except.error KError.ItemNotFound ∧
     applyResult ["## Ready", "- [ ] a [agent::bob] ^x1", "- [ ] b ^x2"]
        (cmdUpdateE ["## Ready", "- [ ] a [agent::bob] ^x1", "- [ ] b ^x2"] "zz" "blocked" none) =
      ["## Ready", "- [ ] a [agent::bob] ^x1", "- [ ] b ^x2"]) ∧
    (cmdClaimE ["## Ready", "- [ ] a [agent::bob] ^x1", "- [ ] b ^x2"] "x1" "c1" "2026-10-11" =
      Except.error KError.AlreadyClaimed ∧
     applyResult ["## Ready", "- [ ] a [agent::bob] ^x1", "- [ ] b ^x2"]
        (cmdClaimE ["## Ready", "- [ ] a [agent::bob] ^x1", "- [ ] b ^x2"] "x1" "c1" "2026-10-11") =
      ["## Ready", "- [ ] a [agent::bob] ^x1", "- [ ] b ^x2"]) ∧
    (cmdClaimE ["## Ready", "- [ ] a [agent::bob] ^x1", "- [ ] b ^x2"] "x2" "c1" "2026-10-11" =
      Except.error KError.LaneNotFound) ∧
    (cmdCompleteE ["## Ready", "- [ ] a [agent::bob] ^x1", "- [ ] b ^x2"] "x2" "2026-10-11" =
      Except.error KError.LaneNotFound) ∧
    (cmdFailE ["## Ready", "- [ ] a [agent::bob] ^x1", "- [ ] b ^x2"] "x2" none =
      Except.error KError.LaneNotFound) ∧
    (cmdAddTaskE ["## Ready", "- [ ] a [agent::bob] ^x1", "- [ ] b ^x2"] "T" "Nope" none [] "g1" =
      Except.error KError.LaneNotFound) := by
  have h := failed_validation_writes_nothing
    ["## Ready", "- [ ] a [agent::bob] ^x1", "- [ ] b ^x2"]
    "zz" "c1" "2026-10-11" "blocked" "T" "Nope" none none none [] "g1"
  have h' := failed_validation_writes_nothing
    ["## Ready", "- [ ] a [agent::bob] ^x1", "- [ ] b ^x2"]
    "x1" "c1" "2026-10-11" "blocked" "T" "Nope" none none none [] "g1"
  have h'' := failed_validation_writes_nothing
    ["## Ready", "- [ ] a [agent::bob] ^x1", "- [ ] b ^x2"]
    "x2" "c1" "2026-10-11" "blocked" "T" "Nope" none none none [] "g1"
  refine ⟨h.1 (by rfl), ?_, ?_, ?_, ?_, (h.2.2.2.2.2.2.2.2 (by rfl)).1⟩
  · exact h'.2.2.1
      ⟨1, "- [ ] a [agent::bob] ^x1", false, "a", some "x1", [("agent", "bob")], [], "Ready"⟩
      (by rfl) (by rfl)
  · exact (h''.2.2.2.1
      ⟨2, "- [ ] b ^x2", false, "b", some "x2", [], [], "Ready"⟩
      (by rfl) (by rfl) (by rfl)).1
  · exact (h''.2.2.2.2.2.1
      ⟨2, "- [ ] b ^x2", false, "b", some "x2", [], [], "Ready"⟩
      (by rfl) (by rfl)).1
  · exact (h''.2.2.2.2.2.2.2.1
      ⟨2, "- [ ] b ^x2", false, "b", some "x2", [], [], "Ready"⟩
      (by rfl) (by rfl)).1

/-! ### Scanner infrastructure: takeWhile/dropWhile over appends -/

theorem takeWhile_append_all (p : Char → Bool) (xs ys : List Char)
    (h : ∀ x ∈ xs, p x = true) :
    (xs ++ ys).takeWhile p = xs ++ ys.takeWhile p := by
  induction xs with
  | nil => rfl
  | cons x xs ih =>
    have hx : p x = true := h x (by simp)
    simp only [List.cons_append, List.takeWhile_cons_of_pos hx]
    rw [ih (fun a ha => h a (by simp [ha]))]

theorem dropWhile_append_all (p : Char → Bool) (xs ys : List Char)
    (h : ∀ x ∈ xs, p x = true) :
    (xs ++ ys).dropWhile p = ys.dropWhile p := by
  induction xs with
  | nil => rfl
  | cons x xs ih =>
    have hx : p x = true := h x (by simp)
    simp only [List.cons_append, List.dropWhile_cons_of_pos hx]
    exact ih (fun a ha => h a (by simp [ha]))

theorem takeWhile_head_neg (p : Char → Bool) (ys : List Char)
    (h : ∀ y, ys.head? = some y → p y = false) : ys.takeWhile p = [] := by
  cases ys with
  | nil => rfl
  | cons y ys =>
    have hy := h y rfl
    exact List.takeWhile_cons_of_neg (by simp [hy])

theorem dropWhile_head_neg (p : Char → Bool) (ys : List Char)
    (h : ∀ y, ys.head? = some y → p y = false) : ys.dropWhile p = ys := by
  cases ys with
  | nil => rfl
  | cons y ys =>
    have hy := h y rfl
    exact List.dropWhile_cons_of_neg (by simp [hy])

theorem takeWhile_append_neg (p : Char → Bool) (xs : List Char) (y : Char) (ys : List Char)
    (hx : ∀ x ∈ xs, p x = true) (hy : p y = false) :
    (xs ++ y :: ys).takeWhile p = xs := by
  rw [takeWhile_append_all p xs (y :: ys) hx,
    List.takeWhile_cons_of_neg (by simp [hy]), List.append_nil]

theorem dropWhile_append_neg (p : Char → Bool) (xs : List Char) (y : Char) (ys : List Char)
    (hx : ∀ x ∈ xs, p x = true) (hy : p y = false) :
    (xs ++ y :: ys).dropWhile p = y :: ys := by
  rw [dropWhile_append_all p xs (y :: ys) hx, List.dropWhile_cons_of_neg (by simp [hy])]

theorem takeWhile_all_self (p : Char → Bool) (xs : List Char) (h : ∀ x ∈ xs, p x = true) :
    xs.takeWhile p = xs := by
  have h2 := takeWhile_append_all p xs [] h
  simpa using h2

theorem dropWhile_all_nil (p : Char → Bool) (xs : List Char) (h : ∀ x ∈ xs, p x = true) :
    xs.dropWhile p = [] := by
  have h2 := dropWhile_append_all p xs [] h
  simpa using h2

/-! ### tryFieldAt characterization -/

theorem tryFieldAt_nil : tryFieldAt [] = none := rfl

theorem tryFieldAt_not_lb (c : Char) (cs : List Char) (hc : ¬ c = '[') :
    tryFieldAt (c :: cs) = none := by
  simp only [tryFieldAt, if_neg hc]

theorem tryFieldAt_shape {cs k v rest : List Char}
    (h : tryFieldAt cs = some ((k, v), rest)) :
    cs = '[' :: (k ++ ':' :: ':' :: (v ++ ']' :: rest)) ∧ k ≠ [] ∧
      (∀ x ∈ k, isKeyChar x = true) ∧ v ≠ [] ∧ (∀ x ∈ v, isValChar x = true) := by
  cases cs with
  | nil => simp [tryFieldAt] at h
  | cons c rest0 =>
    simp only [tryFieldAt] at h
    by_cases hc : c = '['
    · rw [if_pos hc] at h
      subst hc
      by_cases hk : (rest0.takeWhile isKeyChar).isEmpty
      · rw [if_pos hk] at h
        exact absurd h (by simp)
      · rw [if_neg hk] at h
        split at h
        · rename_i c1 c2 r2 hd
          by_cases hcc : c1 = ':' ∧ c2 = ':'
          · rw [if_pos hcc] at h
            by_cases hv : (r2.takeWhile isValChar).isEmpty
            · rw [if_pos hv] at h
              exact absurd h (by simp)
            · rw [if_neg hv] at h
              split at h
              · rename_i c3 r3 he
                by_cases hc3 : c3 = ']'
                · rw [if_pos hc3] at h
                  have hk' : rest0.takeWhile isKeyChar = k := by
                    have h2 := congrArg (fun o => o.map (fun q => q.1.1)) h
                    simpa using h2
                  have hv' : r2.takeWhile isValChar = v := by
                    have h2 := congrArg (fun o => o.map (fun q => q.1.2)) h
                    simpa using h2
                  have hr' : r3 = rest := by
                    have h2 := congrArg (fun o => o.map (fun q => q.2)) h
                    simpa using h2
                  refine ⟨?_, ?_, ?_, ?_, ?_⟩
                  · have e0 : rest0 = rest0.takeWhile isKeyChar ++ rest0.dropWhile isKeyChar :=
                      (List.takeWhile_append_dropWhile isKeyChar rest0).symm
                    have e2 : r2 = r2.takeWhile isValChar ++ r2.dropWhile isValChar :=
                      (List.takeWhile_append_dropWhile isValChar r2).symm
                    rw [show ('[' : Char) :: rest0 = '[' :: (rest0.takeWhile isKeyChar ++
                      rest0.dropWhile isKeyChar) by rw [← e0]]
                    rw [hk', hd, hcc.1, hcc.2]
                    rw [show r2 = v ++ ']' :: rest by
                      rw [e2, hv', he, hc3, hr']]
                  · rw [← hk']
                    simpa using hk
                  · intro x hx
                    rw [← hk'] at hx
                    exact List.mem_takeWhile_imp hx
                  · rw [← hv']
                    simpa using hv
                  · intro x hx
                    rw [← hv'] at hx
                    exact List.mem_takeWhile_imp hx
                · rw [if_neg hc3] at h
                  exact absurd h (by simp)
              · exact absurd h (by simp)
          · rw [if_neg hcc] at h
            exact absurd h (by simp)
        · exact absurd h (by simp)
    · rw [if_neg hc] at h
      exact absurd h (by simp)

theorem tryFieldAt_render (k v ys : List Char) (hk : k ≠ [])
    (hka : ∀ x ∈ k, isKeyChar x = true)
    (hv : v ≠ []) (hva : ∀ x ∈ v, isValChar x = true) :
    tryFieldAt ('[' :: (k ++ ':' :: ':' :: (v ++ ']' :: ys))) = some ((k, v), ys) := by
  have ht : (k ++ ':' :: ':' :: (v ++ ']' :: ys)).takeWhile isKeyChar = k :=
    takeWhile_append_neg _ _ _ _ hka (by decide)
  have hd : (k ++ ':' :: ':' :: (v ++ ']' :: ys)).dropWhile isKeyChar =
      ':' :: ':' :: (v ++ ']' :: ys) :=
    dropWhile_append_neg _ _ _ _ hka (by decide)
  have ht2 : (v ++ ']' :: ys).takeWhile isValChar = v :=
    takeWhile_append_neg _ _ _ _ hva (by decide)
  have hd2 : (v ++ ']' :: ys).dropWhile isValChar = ']' :: ys :=
    dropWhile_append_neg _ _ _ _ hva (by decide)
  simp [tryFieldAt, ht, hd, ht2, hd2, hk, hv]

theorem tryFieldAt_rest_length {cs k v rest : List Char}
    (h : tryFieldAt cs = some ((k, v), rest)) : rest.length < cs.length := by
  have hs := (tryFieldAt_shape h).1
  rw [hs]
  simp [List.length_append]
  omega

/-! ### Fuel invariance and step equations for the scanners -/

theorem fieldScanF_nil (fuel : Nat) : fieldScanF fuel [] = [] := by cases fuel <;> rfl

theorem removeFieldsF_nil (fuel : Nat) : removeFieldsF fuel [] = [] := by cases fuel <;> rfl

theorem tagScanF_nil (fuel : Nat) : tagScanF fuel [] = [] := by cases fuel <;> rfl

theorem removeTagsF_nil (fuel : Nat) : removeTagsF fuel [] = [] := by cases fuel <;> rfl

theorem collapseWsF_nil (fuel : Nat) : collapseWsF fuel [] = [] := by cases fuel <;> rfl

theorem fieldScanF_mono : ∀ (f g : Nat) (cs : List Char), cs.length ≤ f → cs.length ≤ g →
    fieldScanF f cs = fieldScanF g cs := by
  intro f
  induction f with
  | zero =>
    intro g cs hf _
    have hnil : cs = [] := List.eq_nil_of_length_eq_zero (Nat.le_zero.mp hf)
    subst hnil
    rw [fieldScanF_nil, fieldScanF_nil]
  | succ f ih =>
    intro g cs hf hg
    cases cs with
    | nil => rw [fieldScanF_nil, fieldScanF_nil]
    | cons c cs' =>
      cases g with
      | zero => simp at hg
      | succ g' =>
        cases h : tryFieldAt (c :: cs') with
        | none =>
          have e1 : fieldScanF (f + 1) (c :: cs') = fieldScanF f cs' := by
            simp only [fieldScanF, h]
          have e2 : fieldScanF (g' + 1) (c :: cs') = fieldScanF g' cs' := by
            simp only [fieldScanF, h]
          rw [e1, e2]
          exact ih g' cs' (by simpa using hf) (by simpa using hg)
        | some kvrest =>
          obtain ⟨⟨k, v⟩, rest⟩ := kvrest
          have hlen := tryFieldAt_rest_length h
          simp only [List.length_cons] at hlen
          have e1 : fieldScanF (f + 1) (c :: cs') = (k, v) :: fieldScanF f rest := by
            simp only [fieldScanF, h]
          have e2 : fieldScanF (g' + 1) (c :: cs') = (k, v) :: fieldScanF g' rest := by
            simp only [fieldScanF, h]
          rw [e1, e2]
          simp only [List.length_cons] at hf hg
          rw [ih g' rest (by omega) (by omega)]

theorem fieldScanF_eq (f : Nat) (cs : List Char) (h : cs.length ≤ f) :
    fieldScanF f cs = fieldScan cs :=
  fieldScanF_mono f cs.length cs h (le_refl _)

theorem fieldScan_cons_some {c : Char} {cs k v rest : List Char}
    (h : tryFieldAt (c :: cs) = some ((k, v), rest)) :
    fieldScan (c :: cs) = (k, v) :: fieldScan rest := by
  have hlen := tryFieldAt_rest_length h
  simp only [List.length_cons] at hlen
  show fieldScanF (c :: cs).length (c :: cs) = _
  simp only [List.length_cons, fieldScanF, h]
  rw [fieldScanF_eq cs.length rest (by omega)]

theorem fieldScan_cons_none {c : Char} {cs : List Char}
    (h : tryFieldAt (c :: cs) = none) :
    fieldScan (c :: cs) = fieldScan cs := by
  show fieldScanF (c :: cs).length (c :: cs) = _
  simp only [List.length_cons, fieldScanF, h]
  rfl

theorem removeFieldsF_mono : ∀ (f g : Nat) (cs : List Char), cs.length ≤ f → cs.length ≤ g →
    removeFieldsF f cs = removeFieldsF g cs := by
  intro f
  induction f with
  | zero =>
    intro g cs hf _
    have hnil : cs = [] := List.eq_nil_of_length_eq_zero (Nat.le_zero.mp hf)
    subst hnil
    rw [removeFieldsF_nil, removeFieldsF_nil]
  | succ f ih =>
    intro g cs hf hg
    cases cs with
    | nil => rw [removeFieldsF_nil, removeFieldsF_nil]
    | cons c cs' =>
      cases g with
      | zero => simp at hg
      | succ g' =>
        cases h : tryFieldAt (c :: cs') with
        | none =>
          have e1 : removeFieldsF (f + 1) (c :: cs') = c :: removeFieldsF f cs' := by
            simp only [removeFieldsF, h]
          have e2 : removeFieldsF (g' + 1) (c :: cs') = c :: removeFieldsF g' cs' := by
            simp only [removeFieldsF, h]
          rw [e1, e2]
          rw [ih g' cs' (by simpa using hf) (by simpa using hg)]
        | some kvrest =>
          obtain ⟨⟨k, v⟩, rest⟩ := kvrest
          have hlen := tryFieldAt_rest_length h
          simp only [List.length_cons] at hlen
          have e1 : removeFieldsF (f + 1) (c :: cs') = removeFieldsF f rest := by
            simp only [removeFieldsF, h]
          have e2 : removeFieldsF (g' + 1) (c :: cs') = removeFieldsF g' rest := by
            simp only [removeFieldsF, h]
          rw [e1, e2]
          simp only [List.length_cons] at hf hg
          rw [ih g' rest (by omega) (by omega)]

theorem removeFieldsF_eq (f : Nat) (cs : List Char) (h : cs.length ≤ f) :
    removeFieldsF f cs = removeFields cs :=
  removeFieldsF_mono f cs.length cs h (le_refl _)

theorem removeFields_cons_some {c : Char} {cs k v rest : List Char}
    (h : tryFieldAt (c :: cs) = some ((k, v), rest)) :
    removeFields (c :: cs) = removeFields rest := by
  have hlen := tryFieldAt_rest_length h
  simp only [List.length_cons] at hlen
  show removeFieldsF (c :: cs).length (c :: cs) = _
  simp only [List.length_cons, removeFieldsF, h]
  rw [removeFieldsF_eq cs.length rest (by omega)]

theorem removeFields_cons_none {c : Char} {cs : List Char}
    (h : tryFieldAt (c :: cs) = none) :
    removeFields (c :: cs) = c :: removeFields cs := by
  show removeFieldsF (c :: cs).length (c :: cs) = _
  simp only [List.length_cons, removeFieldsF, h]
  rfl

theorem tagScanF_mono : ∀ (f g : Nat) (cs : List Char), cs.length ≤ f → cs.length ≤ g →
    tagScanF f cs = tagScanF g cs := by
  intro f
  induction f with
  | zero =>
    intro g cs hf _
    have hnil : cs = [] := List.eq_nil_of_length_eq_zero (Nat.le_zero.mp hf)
    subst hnil
    rw [tagScanF_nil, tagScanF_nil]
  | succ f ih =>
    intro g cs hf hg
    cases cs with
    | nil => rw [tagScanF_nil, tagScanF_nil]
    | cons c cs' =>
      cases g with
      | zero => simp at hg
      | succ g' =>
        simp only [List.length_cons] at hf hg
        by_cases hc : c = '#'
        · subst hc
          by_cases ht : (cs'.takeWhile isTagChar).isEmpty
          · have e1 : tagScanF (f + 1) ('#' :: cs') = tagScanF f cs' := by
              simp [tagScanF, ht]
            have e2 : tagScanF (g' + 1) ('#' :: cs') = tagScanF g' cs' := by
              simp [tagScanF, ht]
            rw [e1, e2, ih g' cs' (by omega) (by omega)]
          · have e1 : tagScanF (f + 1) ('#' :: cs') = cs'.takeWhile isTagChar ::
                tagScanF f (cs'.drop (cs'.takeWhile isTagChar).length) := by
              simp [tagScanF, ht]
            have e2 : tagScanF (g' + 1) ('#' :: cs') = cs'.takeWhile isTagChar ::
                tagScanF g' (cs'.drop (cs'.takeWhile isTagChar).length) := by
              simp [tagScanF, ht]
            have hdl : (cs'.drop (cs'.takeWhile isTagChar).length).length ≤ cs'.length := by
              simp [List.length_drop]
            rw [e1, e2, ih g' _ (by omega) (by omega)]
        · have e1 : tagScanF (f + 1) (c :: cs') = tagScanF f cs' := by
            simp [tagScanF, hc]
          have e2 : tagScanF (g' + 1) (c :: cs') = tagScanF g' cs' := by
            simp [tagScanF, hc]
          rw [e1, e2, ih g' cs' (by omega) (by omega)]

theorem tagScanF_eq (f : Nat) (cs : List Char) (h : cs.length ≤ f) :
    tagScanF f cs = tagScan cs :=
  tagScanF_mono f cs.length cs h (le_refl _)

theorem tagScan_cons_ne {c : Char} {cs : List Char} (hc : ¬ c = '#') :
    tagScan (c :: cs) = tagScan cs := by
  show tagScanF (c :: cs).length (c :: cs) = _
  simp [tagScanF, hc]
  rfl

theorem tagScan_cons_hash_nil {cs : List Char} (ht : (cs.takeWhile isTagChar).isEmpty) :
    tagScan ('#' :: cs) = tagScan cs := by
  show tagScanF ('#' :: cs).length ('#' :: cs) = _
  simp [tagScanF, ht]
  rfl

theorem tagScan_cons_hash {cs : List Char} (ht : ¬ (cs.takeWhile isTagChar).isEmpty) :
    tagScan ('#' :: cs) = cs.takeWhile isTagChar ::
      tagScan (cs.drop (cs.takeWhile isTagChar).length) := by
  show tagScanF ('#' :: cs).length ('#' :: cs) = _
  simp [tagScanF, ht]
  rw [tagScanF_eq cs.length _ (by simp [List.length_drop])]

theorem removeTagsF_mono : ∀ (f g : Nat) (cs : List Char), cs.length ≤ f → cs.length ≤ g →
    removeTagsF f cs = removeTagsF g cs := by
  intro f
  induction f with
  | zero =>
    intro g cs hf _
    have hnil : cs = [] := List.eq_nil_of_length_eq_zero (Nat.le_zero.mp hf)
    subst hnil
    rw [removeTagsF_nil, removeTagsF_nil]
  | succ f ih =>
    intro g cs hf hg
    cases cs with
    | nil => rw [removeTagsF_nil, removeTagsF_nil]
    | cons c cs' =>
      cases g with
      | zero => simp at hg
      | succ g' =>
        simp only [List.length_cons] at hf hg
        by_cases hc : c = '#'
        · subst hc
          by_cases ht : (cs'.takeWhile isTagChar).isEmpty
          · have e1 : removeTagsF (f + 1) ('#' :: cs') = '#' :: removeTagsF f cs' := by
              simp [removeTagsF, ht]
            have e2 : removeTagsF (g' + 1) ('#' :: cs') = '#' :: removeTagsF g' cs' := by
              simp [removeTagsF, ht]
            rw [e1, e2, ih g' cs' (by omega) (by omega)]
          · have e1 : removeTagsF (f + 1) ('#' :: cs') =
                removeTagsF f (cs'.drop (cs'.takeWhile isTagChar).length) := by
              simp [removeTagsF, ht]
            have e2 : removeTagsF (g' + 1) ('#' :: cs') =
                removeTagsF g' (cs'.drop (cs'.takeWhile isTagChar).length) := by
              simp [removeTagsF, ht]
            have hdl : (cs'.drop (cs'.takeWhile isTagChar).length).length ≤ cs'.length := by
              simp [List.length_drop]
            rw [e1, e2, ih g' _ (by omega) (by omega)]
        · have e1 : removeTagsF (f + 1) (c :: cs') = c :: removeTagsF f cs' := by
            simp [removeTagsF, hc]
          have e2 : removeTagsF (g' + 1) (c :: cs') = c :: removeTagsF g' cs' := by
            simp [removeTagsF, hc]
          rw [e1, e2, ih g' cs' (by omega) (by omega)]

theorem removeTagsF_eq (f : Nat) (cs : List Char) (h : cs.length ≤ f) :
    removeTagsF f cs = removeTags cs :=
  removeTagsF_mono f cs.length cs h (le_refl _)

theorem removeTags_cons_ne {c : Char} {cs : List Char} (hc : ¬ c = '#') :
    removeTags (c :: cs) = c :: removeTags cs := by
  show removeTagsF (c :: cs).length (c :: cs) = _
  simp [removeTagsF, hc]
  rfl

theorem removeTags_cons_hash_nil {cs : List Char} (ht : (cs.takeWhile isTagChar).isEmpty) :
    removeTags ('#' :: cs) = '#' :: removeTags cs := by
  show removeTagsF ('#' :: cs).length ('#' :: cs) = _
  simp [removeTagsF, ht]
  rfl

theorem removeTags_cons_hash {cs : List Char} (ht : ¬ (cs.takeWhile isTagChar).isEmpty) :
    removeTags ('#' :: cs) = removeTags (cs.drop (cs.takeWhile isTagChar).length) := by
  show removeTagsF ('#' :: cs).length ('#' :: cs) = _
  simp [removeTagsF, ht]
  rw [removeTagsF_eq cs.length _ (by simp [List.length_drop])]

theorem collapseWsF_mono : ∀ (f g : Nat) (cs : List Char), cs.length ≤ f → cs.length ≤ g →
    collapseWsF f cs = collapseWsF g cs := by
  intro f
  induction f with
  | zero =>
    intro g cs hf _
    have hnil : cs = [] := List.eq_nil_of_length_eq_zero (Nat.le_zero.mp hf)
    subst hnil
    rw [collapseWsF_nil, collapseWsF_nil]
  | succ f ih =>
    intro g cs hf hg
    cases cs with
    | nil => rw [collapseWsF_nil, collapseWsF_nil]
    | cons c cs' =>
      cases g with
      | zero => simp at hg
      | succ g' =>
        simp only [List.length_cons] at hf hg
        by_cases hc : isWsChar c
        · by_cases ht : (cs'.takeWhile isWsChar).isEmpty
          · have e1 : collapseWsF (f + 1) (c :: cs') = c :: collapseWsF f cs' := by
              simp [collapseWsF, hc, ht]
            have e2 : collapseWsF (g' + 1) (c :: cs') = c :: collapseWsF g' cs' := by
              simp [collapseWsF, hc, ht]
            rw [e1, e2, ih g' cs' (by omega) (by omega)]
          · have e1 : collapseWsF (f + 1) (c :: cs') =
                ' ' :: collapseWsF f (cs'.drop (cs'.takeWhile isWsChar).length) := by
              simp [collapseWsF, hc, ht]
            have e2 : collapseWsF (g' + 1) (c :: cs') =
                ' ' :: collapseWsF g' (cs'.drop (cs'.takeWhile isWsChar).length) := by
              simp [collapseWsF, hc, ht]
            have hdl : (cs'.drop (cs'.takeWhile isWsChar).length).length ≤ cs'.length := by
              simp [List.length_drop]
            rw [e1, e2, ih g' _ (by omega) (by omega)]
        · have e1 : collapseWsF (f + 1) (c :: cs') = c :: collapseWsF f cs' := by
            simp [collapseWsF, hc]
          have e2 : collapseWsF (g' + 1) (c :: cs') = c :: collapseWsF g' cs' := by
            simp [collapseWsF, hc]
          rw [e1, e2, ih g' cs' (by omega) (by omega)]

theorem collapseWsF_eq (f : Nat) (cs : List Char) (h : cs.length ≤ f) :
    collapseWsF f cs = collapseWs cs :=
  collapseWsF_mono f cs.length cs h (le_refl _)

theorem collapseWs_cons_not_ws {c : Char} {cs : List Char} (hc : ¬ isWsChar c) :
    collapseWs (c :: cs) = c :: collapseWs cs := by
  show collapseWsF (c :: cs).length (c :: cs) = _
  simp [collapseWsF, hc]
  rfl

theorem collapseWs_cons_ws_single {c : Char} {cs : List Char} (hc : isWsChar c)
    (ht : (cs.takeWhile isWsChar).isEmpty) :
    collapseWs (c :: cs) = c :: collapseWs cs := by
  show collapseWsF (c :: cs).length (c :: cs) = _
  simp [collapseWsF, hc, ht]
  rfl

theorem collapseWs_cons_ws_run {c : Char} {cs : List Char} (hc : isWsChar c)
    (ht : ¬ (cs.takeWhile isWsChar).isEmpty) :
    collapseWs (c :: cs) = ' ' :: collapseWs (cs.drop (cs.takeWhile isWsChar).length) := by
  show collapseWsF (c :: cs).length (c :: cs) = _
  simp [collapseWsF, hc, ht]
  rw [collapseWsF_eq cs.length _ (by simp [List.length_drop])]

/-! ### Scanning across appends and rendered annotations -/

theorem fieldScan_append_no_lb (xs ys : List Char) (h : ∀ x ∈ xs, ¬ x = '[') :
    fieldScan (xs ++ ys) = fieldScan ys := by
  induction xs with
  | nil => rfl
  | cons x xs ih =>
    rw [List.cons_append, fieldScan_cons_none (tryFieldAt_not_lb x _ (h x (by simp)))]
    exact ih (fun a ha => h a (by simp [ha]))

theorem removeFields_append_no_lb (xs ys : List Char) (h : ∀ x ∈ xs, ¬ x = '[') :
    removeFields (xs ++ ys) = xs ++ removeFields ys := by
  induction xs with
  | nil => rfl
  | cons x xs ih =>
    rw [List.cons_append, removeFields_cons_none (tryFieldAt_not_lb x _ (h x (by simp)))]
    rw [ih (fun a ha => h a (by simp [ha]))]
    simp

theorem fieldScan_no_lb (xs : List Char) (h : ∀ x ∈ xs, ¬ x = '[') : fieldScan xs = [] := by
  have h2 := fieldScan_append_no_lb xs [] h
  simpa using h2

theorem removeFields_no_lb (xs : List Char) (h : ∀ x ∈ xs, ¬ x = '[') :
    removeFields xs = xs := by
  have h2 := removeFields_append_no_lb xs [] h
  have h3 : removeFields ([] : List Char) = [] := rfl
  rw [h3, List.append_nil] at h2
  exact h2

theorem renderFields_cons (k v : String) (fs : List (String × String)) :
    renderFields ((k, v) :: fs) =
      ' ' :: '[' :: (k.data ++ ':' :: ':' :: (v.data ++ ']' :: renderFields fs)) := rfl

theorem fieldScan_renderFields (fs : List (String × String)) (ys : List Char)
    (hfs : ∀ kv ∈ fs, kv.1.data ≠ [] ∧ (∀ x ∈ kv.1.data, isKeyChar x = true) ∧
      kv.2.data ≠ [] ∧ (∀ x ∈ kv.2.data, isValChar x = true)) :
    fieldScan (renderFields fs ++ ys) =
      fs.map (fun kv => (kv.1.data, kv.2.data)) ++ fieldScan ys := by
  induction fs with
  | nil => rfl
  | cons kv fs ih =>
    obtain ⟨k, v⟩ := kv
    obtain ⟨h1, h2, h3, h4⟩ := hfs (k, v) (by simp)
    rw [renderFields_cons]
    rw [show (' ' :: '[' :: (k.data ++ ':' :: ':' :: (v.data ++ ']' :: renderFields fs))) ++ ys =
        ' ' :: '[' :: (k.data ++ ':' :: ':' :: (v.data ++ ']' :: (renderFields fs ++ ys))) by
      simp]
    rw [fieldScan_cons_none (tryFieldAt_not_lb ' ' _ (by decide))]
    rw [fieldScan_cons_some (tryFieldAt_render k.data v.data (renderFields fs ++ ys) h1 h2 h3 h4)]
    rw [ih (fun a ha => hfs a (by simp [ha]))]
    simp

theorem removeFields_renderFields (fs : List (String × String)) (ys : List Char)
    (hfs : ∀ kv ∈ fs, kv.1.data ≠ [] ∧ (∀ x ∈ kv.1.data, isKeyChar x = true) ∧
      kv.2.data ≠ [] ∧ (∀ x ∈ kv.2.data, isValChar x = true)) :
    removeFields (renderFields fs ++ ys) =
      List.replicate fs.length ' ' ++ removeFields ys := by
  induction fs with
  | nil => rfl
  | cons kv fs ih =>
    obtain ⟨k, v⟩ := kv
    obtain ⟨h1, h2, h3, h4⟩ := hfs (k, v) (by simp)
    rw [renderFields_cons]
    rw [show (' ' :: '[' :: (k.data ++ ':' :: ':' :: (v.data ++ ']' :: renderFields fs))) ++ ys =
        ' ' :: '[' :: (k.data ++ ':' :: ':' :: (v.data ++ ']' :: (renderFields fs ++ ys))) by
      simp]
    rw [removeFields_cons_none (tryFieldAt_not_lb ' ' _ (by decide))]
    rw [removeFields_cons_some
      (tryFieldAt_render k.data v.data (renderFields fs ++ ys) h1 h2 h3 h4)]
    rw [ih (fun a ha => hfs a (by simp [ha]))]
    simp [List.replicate_succ]

theorem tagScan_append_no_hash (xs ys : List Char) (h : ∀ x ∈ xs, ¬ x = '#') :
    tagScan (xs ++ ys) = tagScan ys := by
  induction xs with
  | nil => rfl
  | cons x xs ih =>
    rw [List.cons_append, tagScan_cons_ne (h x (by simp))]
    exact ih (fun a ha => h a (by simp [ha]))

theorem removeTags_append_no_hash (xs ys : List Char) (h : ∀ x ∈ xs, ¬ x = '#') :
    removeTags (xs ++ ys) = xs ++ removeTags ys := by
  induction xs with
  | nil => rfl
  | cons x xs ih =>
    rw [List.cons_append, removeTags_cons_ne (h x (by simp))]
    rw [ih (fun a ha => h a (by simp [ha]))]
    simp

theorem tagScan_no_hash (xs : List Char) (h : ∀ x ∈ xs, ¬ x = '#') : tagScan xs = [] := by
  have h2 := tagScan_append_no_hash xs [] h
  simpa using h2

theorem removeTags_no_hash (xs : List Char) (h : ∀ x ∈ xs, ¬ x = '#') :
    removeTags xs = xs := by
  have h2 := removeTags_append_no_hash xs [] h
  have h3 : removeTags ([] : List Char) = [] := rfl
  rw [h3, List.append_nil] at h2
  exact h2

theorem tagScan_hash_tag (t ys : List Char) (ht : t ≠ [])
    (hta : ∀ x ∈ t, isTagChar x = true)
    (hy : ∀ y, ys.head? = some y → isTagChar y = false) :
    tagScan ('#' :: (t ++ ys)) = t :: tagScan ys := by
  have htw : (t ++ ys).takeWhile isTagChar = t := by
    rw [takeWhile_append_all _ _ _ hta, takeWhile_head_neg _ _ hy, List.append_nil]
  have hne : ¬ ((t ++ ys).takeWhile isTagChar).isEmpty := by simp [htw, ht]
  rw [tagScan_cons_hash hne, htw, List.drop_left]

theorem removeTags_hash_tag (t ys : List Char) (ht : t ≠ [])
    (hta : ∀ x ∈ t, isTagChar x = true)
    (hy : ∀ y, ys.head? = some y → isTagChar y = false) :
    removeTags ('#' :: (t ++ ys)) = removeTags ys := by
  have htw : (t ++ ys).takeWhile isTagChar = t := by
    rw [takeWhile_append_all _ _ _ hta, takeWhile_head_neg _ _ hy, List.append_nil]
  have hne : ¬ ((t ++ ys).takeWhile isTagChar).isEmpty := by simp [htw, ht]
  rw [removeTags_cons_hash hne, htw, List.drop_left]

theorem tagScan_renderTagList (tags : List String) (ys : List Char)
    (htags : ∀ t ∈ tags, t.data ≠ [] ∧ ∀ x ∈ t.data, isTagChar x = true)
    (hy : ∀ y, ys.head? = some y → isTagChar y = false)
    (hne : tags ≠ []) :
    tagScan (renderTagList tags ++ ys) = tags.map String.data ++ tagScan ys := by
  induction tags with
  | nil => exact absurd rfl hne
  | cons t ts ih =>
    cases ts with
    | nil =>
      obtain ⟨h1, h2⟩ := htags t (by simp)
      show tagScan (('#' :: t.data) ++ ys) = _
      rw [List.cons_append, tagScan_hash_tag t.data ys h1 h2 hy]
      rfl
    | cons t2 ts2 =>
      obtain ⟨h1, h2⟩ := htags t (by simp)
      show tagScan (('#' :: t.data ++ ' ' :: renderTagList (t2 :: ts2)) ++ ys) = _
      rw [show ('#' :: t.data ++ ' ' :: renderTagList (t2 :: ts2)) ++ ys =
          '#' :: (t.data ++ ' ' :: (renderTagList (t2 :: ts2) ++ ys)) by simp]
      rw [tagScan_hash_tag t.data _ h1 h2
        (fun y hy2 => by
          simp only [List.head?_cons, Option.some.injEq] at hy2
          subst hy2
          decide)]
      rw [tagScan_cons_ne (by decide : ¬ (' ' : Char) = '#')]
      rw [ih (fun a ha => htags a (by simp [ha])) (by simp)]
      simp

theorem removeTags_renderTagList (tags : List String) (ys : List Char)
    (htags : ∀ t ∈ tags, t.data ≠ [] ∧ ∀ x ∈ t.data, isTagChar x = true)
    (hy : ∀ y, ys.head? = some y → isTagChar y = false)
    (hne : tags ≠ []) :
    removeTags (renderTagList tags ++ ys) =
      List.replicate (tags.length - 1) ' ' ++ removeTags ys := by
  induction tags with
  | nil => exact absurd rfl hne
  | cons t ts ih =>
    cases ts with
    | nil =>
      obtain ⟨h1, h2⟩ := htags t (by simp)
      show removeTags (('#' :: t.data) ++ ys) = _
      rw [List.cons_append, removeTags_hash_tag t.data ys h1 h2 hy]
      rfl
    | cons t2 ts2 =>
      obtain ⟨h1, h2⟩ := htags t (by simp)
      show removeTags (('#' :: t.data ++ ' ' :: renderTagList (t2 :: ts2)) ++ ys) = _
      rw [show ('#' :: t.data ++ ' ' :: renderTagList (t2 :: ts2)) ++ ys =
          '#' :: (t.data ++ ' ' :: (renderTagList (t2 :: ts2) ++ ys)) by simp]
      rw [removeTags_hash_tag t.data _ h1 h2
        (fun y hy2 => by
          simp only [List.head?_cons, Option.some.injEq] at hy2
          subst hy2
          decide)]
      rw [removeTags_cons_ne (by decide : ¬ (' ' : Char) = '#')]
      rw [ih (fun a ha => htags a (by simp [ha])) (by simp)]
      simp [List.replicate_succ]

theorem renderTags_cons (t : String) (ts : List String) :
    renderTags (t :: ts) = ' ' :: renderTagList (t :: ts) := by
  simp [renderTags]

theorem tagScan_renderTags (tags : List String) (ys : List Char)
    (htags : ∀ t ∈ tags, t.data ≠ [] ∧ ∀ x ∈ t.data, isTagChar x = true)
    (hy : ∀ y, ys.head? = some y → isTagChar y = false) :
    tagScan (renderTags tags ++ ys) = tags.map String.data ++ tagScan ys := by
  cases tags with
  | nil => simp [renderTags]
  | cons t ts =>
    rw [renderTags_cons, List.cons_append, tagScan_cons_ne (by decide : ¬ (' ' : Char) = '#')]
    exact tagScan_renderTagList (t :: ts) ys htags hy (by simp)

theorem removeTags_renderTags (tags : List String) (ys : List Char)
    (htags : ∀ t ∈ tags, t.data ≠ [] ∧ ∀ x ∈ t.data, isTagChar x = true)
    (hy : ∀ y, ys.head? = some y → isTagChar y = false) :
    removeTags (renderTags tags ++ ys) =
      List.replicate tags.length ' ' ++ removeTags ys := by
  cases tags with
  | nil => simp [renderTags]
  | cons t ts =>
    rw [renderTags_cons, List.cons_append,
      removeTags_cons_ne (by decide : ¬ (' ' : Char) = '#')]
    rw [removeTags_renderTagList (t :: ts) ys htags hy (by simp)]
    simp [List.replicate_succ]

/-! ### splitBlockId characterization -/

theorem splitBlockId_some {cs pre tok : List Char}
    (h : splitBlockId cs = some (pre, tok)) :
    ∃ ws, cs = pre ++ ws ++ '^' :: tok ∧ ws ≠ [] ∧ (∀ x ∈ ws, isWsChar x = true) ∧
      tok ≠ [] ∧ (∀ x ∈ tok, isIdChar x = true) ∧
      (∀ l, pre.getLast? = some l → isWsChar l = false) := by
  simp only [splitBlockId] at h
  by_cases htok : (cs.reverse.takeWhile isIdChar).isEmpty
  · rw [if_pos htok] at h
    exact absurd h (by simp)
  · rw [if_neg htok] at h
    split at h
    · rename_i c r2 hd
      by_cases hc : c = '^'
      · rw [if_pos hc] at h
        subst hc
        by_cases hw : (r2.takeWhile isWsChar).isEmpty
        · rw [if_pos hw] at h
          exact absurd h (by simp)
        · rw [if_neg hw] at h
          have hpre : (r2.dropWhile isWsChar).reverse = pre := by
            have h2 := congrArg (fun o => o.map Prod.fst) h
            simpa using h2
          have htk : (cs.reverse.takeWhile isIdChar).reverse = tok := by
            have h2 := congrArg (fun o => o.map Prod.snd) h
            simpa using h2
          refine ⟨(r2.takeWhile isWsChar).reverse, ?_, by simpa using hw, ?_, ?_, ?_, ?_⟩
          · have e0 : cs.reverse = cs.reverse.takeWhile isIdChar ++
                cs.reverse.dropWhile isIdChar :=
              (List.takeWhile_append_dropWhile isIdChar cs.reverse).symm
            have e2 : r2 = r2.takeWhile isWsChar ++ r2.dropWhile isWsChar :=
              (List.takeWhile_append_dropWhile isWsChar r2).symm
            have hcs : cs.reverse = tok.reverse ++ '^' :: r2 := by
              conv_lhs => rw [e0]
              rw [hd, ← htk]
              simp
            have hcs2 : cs = r2.reverse ++ '^' :: tok := by
              have h3 := congrArg List.reverse hcs
              simpa using h3
            rw [hcs2]
            conv_lhs => rw [e2]
            rw [List.reverse_append, hpre]
          · intro x hx
            have hx2 : x ∈ r2.takeWhile isWsChar := by simpa using hx
            exact List.mem_takeWhile_imp hx2
          · rw [← htk]
            simpa using htok
          · intro x hx
            rw [← htk] at hx
            have hx2 : x ∈ cs.reverse.takeWhile isIdChar := by simpa using hx
            exact List.mem_takeWhile_imp hx2
          · intro l hl
            rw [← hpre] at hl
            rw [List.getLast?_reverse] at hl
            have := List.head?_dropWhile_not isWsChar r2
            rw [hl] at this
            exact this
      · rw [if_neg hc] at h
        exact absurd h (by simp)
    · exact absurd h (by simp)

theorem splitBlockId_render (pre ws tok : List Char) (hws : ws ≠ [])
    (hwsa : ∀ x ∈ ws, isWsChar x = true)
    (htok : tok ≠ []) (htoka : ∀ x ∈ tok, isIdChar x = true)
    (hpre : ∀ l, pre.getLast? = some l → isWsChar l = false) :
    splitBlockId (pre ++ ws ++ '^' :: tok) = some (pre, tok) := by
  have hrev : (pre ++ ws ++ '^' :: tok).reverse =
      tok.reverse ++ '^' :: (ws.reverse ++ pre.reverse) := by
    simp
  have htw : (tok.reverse ++ '^' :: (ws.reverse ++ pre.reverse)).takeWhile isIdChar =
      tok.reverse :=
    takeWhile_append_neg _ _ _ _ (fun x hx => htoka x (by simpa using hx)) (by decide)
  have hdw : (tok.reverse ++ '^' :: (ws.reverse ++ pre.reverse)).dropWhile isIdChar =
      '^' :: (ws.reverse ++ pre.reverse) :=
    dropWhile_append_neg _ _ _ _ (fun x hx => htoka x (by simpa using hx)) (by decide)
  have hw2 : (ws.reverse ++ pre.reverse).takeWhile isWsChar = ws.reverse := by
    rw [takeWhile_append_all _ _ _ (fun x hx => hwsa x (by simpa using hx))]
    rw [takeWhile_head_neg _ _ (fun y hy => by
      rw [List.head?_reverse] at hy
      exact hpre y hy)]
    simp
  have hd2 : (ws.reverse ++ pre.reverse).dropWhile isWsChar = pre.reverse := by
    rw [dropWhile_append_all _ _ _ (fun x hx => hwsa x (by simpa using hx))]
    exact dropWhile_head_neg _ _ (fun y hy => by
      rw [List.head?_reverse] at hy
      exact hpre y hy)
  simp [splitBlockId, hrev, htw, hdw, hw2, hd2, htok, hws]

theorem blockIdOf_render_weak (X tok : List Char)
    (htok : tok ≠ []) (htoka : ∀ x ∈ tok, isIdChar x = true) :
    blockIdOf (X ++ ' ' :: '^' :: tok) = some tok := by
  have hrev : (X ++ ' ' :: '^' :: tok).reverse =
      tok.reverse ++ '^' :: ' ' :: X.reverse := by
    simp
  have htw : (tok.reverse ++ '^' :: ' ' :: X.reverse).takeWhile isIdChar = tok.reverse :=
    takeWhile_append_neg _ _ _ _ (fun x hx => htoka x (by simpa using hx)) (by decide)
  have hdw : (tok.reverse ++ '^' :: ' ' :: X.reverse).dropWhile isIdChar =
      '^' :: ' ' :: X.reverse :=
    dropWhile_append_neg _ _ _ _ (fun x hx => htoka x (by simpa using hx)) (by decide)
  have hw2 : ¬ ((' ' :: X.reverse).takeWhile isWsChar).isEmpty := by
    rw [List.takeWhile_cons_of_pos (by decide : isWsChar ' ' = true)]
    simp
  unfold blockIdOf
  simp [splitBlockId, hrev, htw, hdw, hw2, htok]

/-! ### Characters of parsed components come from the input -/

theorem mem_removeFieldsF : ∀ (fuel : Nat) (cs : List Char) (x : Char),
    x ∈ removeFieldsF fuel cs → x ∈ cs := by
  intro fuel
  induction fuel with
  | zero => intro cs x hx; simpa using hx
  | succ fuel ih =>
    intro cs x hx
    cases cs with
    | nil => simpa [removeFieldsF_nil] using hx
    | cons c cs' =>
      cases h : tryFieldAt (c :: cs') with
      | none =>
        rw [show removeFieldsF (fuel + 1) (c :: cs') = c :: removeFieldsF fuel cs' by
          simp only [removeFieldsF, h]] at hx
        rcases List.mem_cons.mp hx with rfl | hx2
        · simp
        · exact List.mem_cons_of_mem _ (ih cs' x hx2)
      | some kvrest =>
        obtain ⟨⟨k, v⟩, rest⟩ := kvrest
        rw [show removeFieldsF (fuel + 1) (c :: cs') = removeFieldsF fuel rest by
          simp only [removeFieldsF, h]] at hx
        have hx2 := ih rest x hx
        rw [(tryFieldAt_shape h).1]
        simp [hx2]

theorem mem_removeFields {cs : List Char} {x : Char} (hx : x ∈ removeFields cs) : x ∈ cs :=
  mem_removeFieldsF cs.length cs x hx

theorem mem_removeTagsF : ∀ (fuel : Nat) (cs : List Char) (x : Char),
    x ∈ removeTagsF fuel cs → x ∈ cs := by
  intro fuel
  induction fuel with
  | zero => intro cs x hx; simpa using hx
  | succ fuel ih =>
    intro cs x hx
    cases cs with
    | nil => simpa [removeTagsF_nil] using hx
    | cons c cs' =>
      by_cases hc : c = '#'
      · subst hc
        by_cases ht : (cs'.takeWhile isTagChar).isEmpty
        · rw [show removeTagsF (fuel + 1) ('#' :: cs') = '#' :: removeTagsF fuel cs' by
            simp [removeTagsF, ht]] at hx
          rcases List.mem_cons.mp hx with rfl | hx2
          · simp
          · exact List.mem_cons_of_mem _ (ih cs' x hx2)
        · rw [show removeTagsF (fuel + 1) ('#' :: cs') =
              removeTagsF fuel (cs'.drop (cs'.takeWhile isTagChar).length) by
            simp [removeTagsF, ht]] at hx
          exact List.mem_cons_of_mem _ (List.mem_of_mem_drop (ih _ x hx))
      · rw [show removeTagsF (fuel + 1) (c :: cs') = c :: removeTagsF fuel cs' by
          simp [removeTagsF, hc]] at hx
        rcases List.mem_cons.mp hx with rfl | hx2
        · simp
        · exact List.mem_cons_of_mem _ (ih cs' x hx2)

theorem mem_removeTags {cs : List Char} {x : Char} (hx : x ∈ removeTags cs) : x ∈ cs :=
  mem_removeTagsF cs.length cs x hx

theorem mem_collapseWsF : ∀ (fuel : Nat) (cs : List Char) (x : Char),
    x ∈ collapseWsF fuel cs → x ∈ cs ∨ x = ' ' := by
  intro fuel
  induction fuel with
  | zero => intro cs x hx; exact Or.inl (by simpa using hx)
  | succ fuel ih =>
    intro cs x hx
    cases cs with
    | nil => simp [collapseWsF_nil] at hx
    | cons c cs' =>
      by_cases hc : isWsChar c
      · by_cases ht : (cs'.takeWhile isWsChar).isEmpty
        · rw [show collapseWsF (fuel + 1) (c :: cs') = c :: collapseWsF fuel cs' by
            simp [collapseWsF, hc, ht]] at hx
          rcases List.mem_cons.mp hx with rfl | hx2
          · exact Or.inl (by simp)
          · rcases ih cs' x hx2 with h2 | h2
            · exact Or.inl (List.mem_cons_of_mem _ h2)
            · exact Or.inr h2
        · rw [show collapseWsF (fuel + 1) (c :: cs') =
              ' ' :: collapseWsF fuel (cs'.drop (cs'.takeWhile isWsChar).length) by
            simp [collapseWsF, hc, ht]] at hx
          rcases List.mem_cons.mp hx with rfl | hx2
          · exact Or.inr rfl
          · rcases ih _ x hx2 with h2 | h2
            · exact Or.inl (List.mem_cons_of_mem _ (List.mem_of_mem_drop h2))
            · exact Or.inr h2
      · rw [show collapseWsF (fuel + 1) (c :: cs') = c :: collapseWsF fuel cs' by
          simp [collapseWsF, hc]] at hx
        rcases List.mem_cons.mp hx with rfl | hx2
        · exact Or.inl (by simp)
        · rcases ih cs' x hx2 with h2 | h2
          · exact Or.inl (List.mem_cons_of_mem _ h2)
          · exact Or.inr h2

theorem mem_collapseWs {cs : List Char} {x : Char} (hx : x ∈ collapseWs cs) :
    x ∈ cs ∨ x = ' ' :=
  mem_collapseWsF cs.length cs x hx

theorem mem_dropWhile {p : Char → Bool} {cs : List Char} {x : Char}
    (hx : x ∈ cs.dropWhile p) : x ∈ cs :=
  (List.dropWhile_sublist p).subset hx

theorem mem_jsTrim {cs : List Char} {x : Char} (hx : x ∈ jsTrim cs) : x ∈ cs := by
  unfold jsTrim at hx
  rw [List.mem_reverse] at hx
  have h2 := mem_dropWhile hx
  rw [List.mem_reverse] at h2
  exact mem_dropWhile h2

theorem mem_removeBlockId {cs : List Char} {x : Char} (hx : x ∈ removeBlockId cs) :
    x ∈ cs := by
  unfold removeBlockId at hx
  cases hsb : splitBlockId cs with
  | none => rw [hsb] at hx; exact hx
  | some pt =>
    obtain ⟨p, tok⟩ := pt
    rw [hsb] at hx
    obtain ⟨ws, hcs, -⟩ := splitBlockId_some hsb
    rw [hcs]
    simp [hx]

theorem mem_itemText {content : List Char} {x : Char} (hx : x ∈ (itemText content).data) :
    x ∈ content ∨ x = ' ' := by
  unfold itemText at hx
  have h1 : x ∈ jsTrim (collapseWs (removeTags (removeBlockId (removeFields content)))) := by
    simpa using hx
  have h2 := mem_jsTrim h1
  rcases mem_collapseWs h2 with h3 | h3
  · exact Or.inl (mem_removeFields (mem_removeBlockId (mem_removeTags h3)))
  · exact Or.inr h3

/-! ### Well-formedness of parsed components -/

theorem blockIdOf_wf {cs tok : List Char} (h : blockIdOf cs = some tok) :
    tok ≠ [] ∧ ∀ x ∈ tok, isIdChar x = true := by
  unfold blockIdOf at h
  cases hsb : splitBlockId cs with
  | none => rw [hsb] at h; exact absurd h (by simp)
  | some pt =>
    obtain ⟨p, t⟩ := pt
    rw [hsb] at h
    have ht : t = tok := by simpa using h
    subst ht
    obtain ⟨ws, -, -, -, h4, h5, -⟩ := splitBlockId_some hsb
    exact ⟨h4, h5⟩

theorem tagScanF_wf : ∀ (fuel : Nat) (cs : List Char) (t : List Char),
    t ∈ tagScanF fuel cs → t ≠ [] ∧ ∀ x ∈ t, isTagChar x = true := by
  intro fuel
  induction fuel with
  | zero => intro cs t ht; simp [tagScanF] at ht
  | succ fuel ih =>
    intro cs t ht
    cases cs with
    | nil => simp [tagScanF_nil] at ht
    | cons c cs' =>
      by_cases hc : c = '#'
      · subst hc
        by_cases he : (cs'.takeWhile isTagChar).isEmpty
        · rw [show tagScanF (fuel + 1) ('#' :: cs') = tagScanF fuel cs' by
            simp [tagScanF, he]] at ht
          exact ih cs' t ht
        · rw [show tagScanF (fuel + 1) ('#' :: cs') = cs'.takeWhile isTagChar ::
              tagScanF fuel (cs'.drop (cs'.takeWhile isTagChar).length) by
            simp [tagScanF, he]] at ht
          rcases List.mem_cons.mp ht with rfl | ht2
          · exact ⟨by simpa using he, fun x hx => List.mem_takeWhile_imp hx⟩
          · exact ih _ t ht2
      · rw [show tagScanF (fuel + 1) (c :: cs') = tagScanF fuel cs' by
          simp [tagScanF, hc]] at ht
        exact ih cs' t ht

theorem itemTags_wf {content : List Char} {t : String} (ht : t ∈ itemTags content) :
    t.data ≠ [] ∧ ∀ x ∈ t.data, isTagChar x = true := by
  unfold itemTags at ht
  rw [List.mem_map] at ht
  obtain ⟨l, hl, rfl⟩ := ht
  exact tagScanF_wf _ _ l hl

/-! ### Unfolding parseItem and buildItemLine -/

theorem parseItem_mk (c : Char) (rest : List Char) (ix : Nat) (lt : String) :
    parseItem (String.mk ('-' :: ' ' :: '[' :: c :: ']' :: ' ' :: rest)) ix lt =
      if (c = ' ' || c = 'x') && !rest.isEmpty && rest.all (fun ch => !(ch = '\n')) then
        some { lineIndex := ix, raw := String.mk ('-' :: ' ' :: '[' :: c :: ']' :: ' ' :: rest),
               checked := c = 'x', text := itemText rest,
               blockId := (blockIdOf rest).map String.mk,
               fields := fieldsOf rest, tags := itemTags rest, laneTitle := lt }
      else none := rfl

theorem buildItemLine_data (item : KanbanItem) (updF : List (String × String))
    (updTags : Option (List String)) (updChecked : Option Bool) :
    (buildItemLine item updF updTags updChecked).data =
      '-' :: ' ' :: '[' :: (if updChecked.getD item.checked then 'x' else ' ') :: ']' :: ' ' ::
        (item.text.data ++ renderFields (mergeFields item.fields updF) ++
          renderTags (updTags.getD item.tags) ++
          (match item.blockId with
           | some b => ' ' :: '^' :: b.data
           | none => [])) := by
  simp [buildItemLine]

theorem parseItem_some_shape {line : String} {i : Nat} {lt : String} {item : KanbanItem}
    (h : parseItem line i lt = some item) :
    ∃ c rest, line.data = '-' :: ' ' :: '[' :: c :: ']' :: ' ' :: rest ∧
      (c = ' ' ∨ c = 'x') ∧ rest ≠ [] ∧ (∀ x ∈ rest, ¬ x = '\n') ∧
      item.text = itemText rest ∧ item.blockId = (blockIdOf rest).map String.mk ∧
      item.fields = fieldsOf rest ∧ item.tags = itemTags rest ∧
      item.checked = decide (c = 'x') ∧ item.lineIndex = i ∧ item.laneTitle = lt := by
  unfold parseItem at h
  split at h
  · rename_i c rest heq
    split at h
    · rename_i hguard
      simp only [Bool.and_eq_true, Bool.or_eq_true, decide_eq_true_eq, Bool.not_eq_true',
        List.all_eq_true, List.isEmpty_eq_false] at hguard
      obtain ⟨⟨hc, hne⟩, hnl⟩ := hguard
      have hR := Option.some.inj h
      subst hR
      refine ⟨c, rest, heq, hc, hne, ?_, rfl, rfl, rfl, rfl, rfl, rfl, rfl⟩
      intro x hx
      have h9 := hnl x hx
      simp only [Bool.not_eq_true', decide_eq_false_iff_not] at h9
      exact h9
    · exact absurd h (by simp)
  · exact absurd h (by simp)

/-! ### Rendered annotations contain no newline -/

theorem mem_setField {fs : List (String × String)} {k v : String} {kv : String × String}
    (h : kv ∈ setField fs k v) : kv ∈ fs ∨ kv = (k, v) := by
  unfold setField at h
  by_cases hp : fs.any (fun p => p.1 == k)
  · rw [if_pos hp] at h
    rw [List.mem_map] at h
    obtain ⟨p, hp2, hp3⟩ := h
    by_cases hpk : p.1 == k
    · rw [if_pos hpk] at hp3
      exact Or.inr hp3.symm
    · rw [if_neg hpk] at hp3
      exact Or.inl (hp3 ▸ hp2)
  · rw [if_neg hp] at h
    rcases List.mem_append.mp h with h2 | h2
    · exact Or.inl h2
    · exact Or.inr (by simpa using h2)

theorem mem_foldl_setField : ∀ (pairs : List (String × String))
    (acc : List (String × String)) (kv : String × String),
    kv ∈ pairs.foldl (fun a p => setField a p.1 p.2) acc → kv ∈ acc ∨ kv ∈ pairs := by
  intro pairs
  induction pairs with
  | nil => intro acc kv h; exact Or.inl (by simpa using h)
  | cons p ps ih =>
    intro acc kv h
    rw [List.foldl_cons] at h
    rcases ih _ kv h with h2 | h2
    · rcases mem_setField h2 with h3 | h3
      · exact Or.inl h3
      · exact Or.inr (by simp [h3])
    · exact Or.inr (List.mem_cons_of_mem _ h2)

theorem mem_mergeFields {fs patch : List (String × String)} {kv : String × String}
    (h : kv ∈ mergeFields fs patch) : kv ∈ fs ∨ kv ∈ patch :=
  mem_foldl_setField patch fs kv h

theorem renderFields_no_newline (fs : List (String × String))
    (h : ∀ kv ∈ fs, (∀ x ∈ kv.1.data, ¬ x = '\n') ∧ (∀ x ∈ kv.2.data, ¬ x = '\n')) :
    ∀ x ∈ renderFields fs, ¬ x = '\n' := by
  induction fs with
  | nil => intro x hx; simp [renderFields] at hx
  | cons kv fs ih =>
    obtain ⟨k, v⟩ := kv
    obtain ⟨h1, h2⟩ := h (k, v) (by simp)
    intro x hx
    rw [renderFields_cons] at hx
    simp only [List.mem_cons, List.mem_append] at hx
    rcases hx with rfl | rfl | hx
    · decide
    · decide
    · rcases hx with hx | hx
      · exact h1 x hx
      · rcases hx with rfl | rfl | hx
        · decide
        · decide
        · rcases hx with hx | hx
          · exact h2 x hx
          · rcases hx with rfl | hx
            · decide
            · exact ih (fun a ha => h a (by simp [ha])) x hx

theorem renderTagList_no_newline (tags : List String)
    (h : ∀ t ∈ tags, ∀ x ∈ t.data, ¬ x = '\n') :
    ∀ x ∈ renderTagList tags, ¬ x = '\n' := by
  induction tags with
  | nil => intro x hx; simp [renderTagList] at hx
  | cons t ts ih =>
    intro x hx
    cases ts with
    | nil =>
      rcases List.mem_cons.mp hx with rfl | hx2
      · decide
      · exact h t (by simp) x hx2
    | cons t2 ts2 =>
      rcases List.mem_cons.mp hx with rfl | hx2
      · decide
      · rcases List.mem_append.mp hx2 with hx3 | hx3
        · exact h t (by simp) x hx3
        · rcases List.mem_cons.mp hx3 with rfl | hx4
          · decide
          · exact ih (fun a ha => h a (by simp [ha])) x hx4

theorem renderTags_no_newline (tags : List String)
    (h : ∀ t ∈ tags, ∀ x ∈ t.data, ¬ x = '\n') :
    ∀ x ∈ renderTags tags, ¬ x = '\n' := by
  intro x hx
  unfold renderTags at hx
  by_cases he : tags.isEmpty
  · rw [if_pos he] at hx
    simp at hx
  · rw [if_neg he] at hx
    rcases List.mem_cons.mp hx with rfl | hx2
    · decide
    · exact renderTagList_no_newline tags h x hx2

theorem fieldScanF_mem_subset : ∀ (fuel : Nat) (cs k v : List Char),
    (k, v) ∈ fieldScanF fuel cs → (∀ x ∈ k, x ∈ cs) ∧ (∀ x ∈ v, x ∈ cs) := by
  intro fuel
  induction fuel with
  | zero => intro cs k v h; simp [fieldScanF] at h
  | succ fuel ih =>
    intro cs k v h
    cases cs with
    | nil => simp [fieldScanF_nil] at h
    | cons c cs' =>
      cases ht : tryFieldAt (c :: cs') with
      | none =>
        rw [show fieldScanF (fuel + 1) (c :: cs') = fieldScanF fuel cs' by
          simp only [fieldScanF, ht]] at h
        have h2 := ih cs' k v h
        exact ⟨fun x hx => List.mem_cons_of_mem _ (h2.1 x hx),
          fun x hx => List.mem_cons_of_mem _ (h2.2 x hx)⟩
      | some kvrest =>
        obtain ⟨⟨k0, v0⟩, rest⟩ := kvrest
        rw [show fieldScanF (fuel + 1) (c :: cs') = (k0, v0) :: fieldScanF fuel rest by
          simp only [fieldScanF, ht]] at h
        have hs := (tryFieldAt_shape ht).1
        rcases List.mem_cons.mp h with heq | h2
        · have hk : k = k0 := by simpa using congrArg Prod.fst heq
          have hv : v = v0 := by simpa using congrArg Prod.snd heq
          subst hk hv
          constructor
          · intro x hx
            rw [hs]
            simp [hx]
          · intro x hx
            rw [hs]
            simp [hx]
        · have h3 := ih rest k v h2
          constructor
          · intro x hx
            rw [hs]
            simp [h3.1 x hx]
          · intro x hx
            rw [hs]
            simp [h3.2 x hx]

theorem fieldsOf_mem_subset {cs : List Char} {kv : String × String}
    (h : kv ∈ fieldsOf cs) : (∀ x ∈ kv.1.data, x ∈ cs) ∧ (∀ x ∈ kv.2.data, x ∈ cs) := by
  unfold fieldsOf at h
  have h2 := mem_foldl_setField _ _ _ (by
    have : (fieldScan cs).foldl
        (fun fs kv => setField fs (String.mk (jsTrim kv.1)) (String.mk (jsTrim kv.2))) [] =
      ((fieldScan cs).map (fun kv => (String.mk (jsTrim kv.1), String.mk (jsTrim kv.2)))).foldl
        (fun a p => setField a p.1 p.2) [] := by
      rw [List.foldl_map]
    rw [← this]
    exact h)
  rcases h2 with h2 | h2
  · simp at h2
  · rw [List.mem_map] at h2
    obtain ⟨⟨k0, v0⟩, hk0, hkv⟩ := h2
    have hsub := fieldScanF_mem_subset cs.length cs k0 v0 hk0
    subst hkv
    constructor
    · intro x hx
      exact hsub.1 x (mem_jsTrim (by simpa using hx))
    · intro x hx
      exact hsub.2 x (mem_jsTrim (by simpa using hx))

theorem mem_spliceInsert (l : List String) (i : Nat) (a : String) :
    a ∈ spliceInsert l i a := by
  unfold spliceInsert
  simp

/-! ### C5: rebuild and move preserve the block id -/

/-- C5: for any item obtained from `parseItem` that carries a block id,
rebuilding its line with `buildItemLine` under an arbitrary field patch,
tag replacement and checked update (all newline-free) produces a line that
still parses as an item and carries exactly the same block id; and
`moveItem` splices exactly that rebuilt line into the board.  Only lane
membership and the patched fields/tags/checked state can differ. -/
theorem moveItem_preserves_blockId
    (line : String) (i ix : Nat) (lt lt' : String) (item : KanbanItem)
    (lines : List String) (lane : KanbanLane) (b : String)
    (updF : List (String × String)) (updTags : Option (List String))
    (updChecked : Option Bool)
    (hparse : parseItem line i lt = some item)
    (hbid : item.blockId = some b)
    (hupdF : ∀ kv ∈ updF, (∀ x ∈ kv.1.data, ¬ x = '\n') ∧ (∀ x ∈ kv.2.data, ¬ x = '\n'))
    (hupdT : ∀ ts, updTags = some ts → ∀ t ∈ ts, ∀ x ∈ t.data, ¬ x = '\n') :
    ∃ it', parseItem (buildItemLine item updF updTags updChecked) ix lt' = some it' ∧
      it'.blockId = some b ∧
      buildItemLine item updF updTags updChecked ∈
        moveItemLines lines item.lineIndex lane (buildItemLine item updF updTags updChecked) := by
  obtain ⟨c, rest, hdata, hc, hne, hnl, htext, hbid2, hfields, htags, hchecked, -, -⟩ :=
    parseItem_some_shape hparse
  -- the block id token is well formed
  have hbof : blockIdOf rest = some b.data := by
    rw [hbid] at hbid2
    cases hb0 : blockIdOf rest with
    | none => rw [hb0] at hbid2; exact absurd hbid2 (by simp)
    | some tok =>
      rw [hb0] at hbid2
      have : String.mk tok = b := by simpa using hbid2.symm
      rw [← this]
  have hwf := blockIdOf_wf hbof
  -- components of the rebuilt content
  set T := item.text.data with hT
  set F := renderFields (mergeFields item.fields updF) with hF
  set G := renderTags (updTags.getD item.tags) with hG
  have hcontent : (buildItemLine item updF updTags updChecked).data =
      '-' :: ' ' :: '[' :: (if updChecked.getD item.checked then 'x' else ' ') :: ']' :: ' ' ::
        ((T ++ F ++ G) ++ ' ' :: '^' :: b.data) := by
    rw [buildItemLine_data, hbid]
  -- no newline in any component
  have hTn : ∀ x ∈ T, ¬ x = '\n' := by
    intro x hx
    rw [hT, htext] at hx
    rcases mem_itemText hx with h2 | h2
    · exact hnl x h2
    · simp [h2]
  have hFn : ∀ x ∈ F, ¬ x = '\n' := by
    rw [hF]
    apply renderFields_no_newline
    intro kv hkv
    rcases mem_mergeFields hkv with h2 | h2
    · rw [hfields] at h2
      have h3 := fieldsOf_mem_subset h2
      exact ⟨fun x hx => hnl x (h3.1 x hx), fun x hx => hnl x (h3.2 x hx)⟩
    · exact hupdF kv h2
  have hGn : ∀ x ∈ G, ¬ x = '\n' := by
    rw [hG]
    apply renderTags_no_newline
    cases hut : updTags with
    | none =>
      simp only [Option.getD_none]
      intro t hti x hx
      rw [htags] at hti
      have h2 := (itemTags_wf hti).2 x hx
      intro hxe
      subst hxe
      exact absurd h2 (by decide)
    | some ts =>
      simp only [Option.getD_some]
      exact hupdT ts hut
  have hbn : ∀ x ∈ b.data, ¬ x = '\n' := by
    intro x hx
    have h2 := hwf.2 x hx
    intro hxe
    subst hxe
    exact absurd h2 (by decide)
  -- the rebuilt content parses, with the same block id
  have hrest_nl : ∀ x ∈ (T ++ F ++ G) ++ ' ' :: '^' :: b.data, ¬ x = '\n' := by
    intro x hx
    simp only [List.mem_append, List.mem_cons] at hx
    rcases hx with ((hx | hx) | hx) | rfl | rfl | hx
    · exact hTn x hx
    · exact hFn x hx
    · exact hGn x hx
    · decide
    · decide
    · exact hbn x hx
  have hbid3 : blockIdOf ((T ++ F ++ G) ++ ' ' :: '^' :: b.data) = some b.data :=
    blockIdOf_render_weak (T ++ F ++ G) b.data hwf.1 hwf.2
  have hline : buildItemLine item updF updTags updChecked =
      String.mk ('-' :: ' ' :: '[' :: (if updChecked.getD item.checked then 'x' else ' ') ::
        ']' :: ' ' :: (T ++ F ++ G ++ ' ' :: '^' :: b.data)) := by
    have h2 := congrArg String.mk hcontent
    simpa using h2
  have hguard : (((if updChecked.getD item.checked then 'x' else ' ') = ' ' ||
      (if updChecked.getD item.checked then 'x' else ' ') = 'x') &&
      !(T ++ F ++ G ++ ' ' :: '^' :: b.data).isEmpty &&
      (T ++ F ++ G ++ ' ' :: '^' :: b.data).all (fun ch => !(ch = '\n'))) = true := by
    simp only [Bool.and_eq_true, Bool.or_eq_true, decide_eq_true_eq, Bool.not_eq_true',
      List.all_eq_true, List.isEmpty_eq_false]
    refine ⟨⟨?_, by simp⟩, ?_⟩
    · by_cases hch : updChecked.getD item.checked <;> simp [hch]
    · intro x hx
      have h9 := hrest_nl x hx
      simp only [Bool.not_eq_true', decide_eq_false_iff_not]
      exact h9
  refine ⟨{ lineIndex := ix,
            raw := String.mk ('-' :: ' ' :: '[' ::
              (if updChecked.getD item.checked then 'x' else ' ') :: ']' :: ' ' ::
              (T ++ F ++ G ++ ' ' :: '^' :: b.data)),
            checked := decide ((if updChecked.getD item.checked then 'x' else ' ') = 'x'),
            text := itemText (T ++ F ++ G ++ ' ' :: '^' :: b.data),
            blockId := (blockIdOf (T ++ F ++ G ++ ' ' :: '^' :: b.data)).map String.mk,
            fields := fieldsOf (T ++ F ++ G ++ ' ' :: '^' :: b.data),
            tags := itemTags (T ++ F ++ G ++ ' ' :: '^' :: b.data),
            laneTitle := lt' }, ?_, ?_, ?_⟩
  · rw [hline, parseItem_mk, if_pos hguard]
  · show (blockIdOf (T ++ F ++ G ++ ' ' :: '^' :: b.data)).map String.mk = some b
    rw [hbid3]
    rfl
  · unfold moveItemLines
    exact mem_spliceInsert _ _ _

theorem moveItem_preserves_blockId_witness :
    ∃ it', parseItem (buildItemLine
        ⟨0, "- [ ] Fix bug #agent-task ^abc1", false, "Fix bug", some "abc1", [],
          ["agent-task"], "Ready"⟩
        [("status", "blocked")] (some ["blocked"]) none) 5 "Done" = some it' ∧
      it'.blockId = some "abc1" ∧
      buildItemLine
        ⟨0, "- [ ] Fix bug #agent-task ^abc1", false, "Fix bug", some "abc1", [],
          ["agent-task"], "Ready"⟩
        [("status", "blocked")] (some ["blocked"]) none ∈
        moveItemLines ["## Ready", "## Done"] 0 ⟨"Done", 1, 2, []⟩
          (buildItemLine
            ⟨0, "- [ ] Fix bug #agent-task ^abc1", false, "Fix bug", some "abc1", [],
              ["agent-task"], "Ready"⟩
            [("status", "blocked")] (some ["blocked"]) none) :=
  moveItem_preserves_blockId "- [ ] Fix bug #agent-task ^abc1" 0 5 "Ready" "Done"
    ⟨0, "- [ ] Fix bug #agent-task ^abc1", false, "Fix bug", some "abc1", [],
      ["agent-task"], "Ready"⟩
    ["## Ready", "## Done"] ⟨"Done", 1, 2, []⟩ "abc1"
    [("status", "blocked")] (some ["blocked"]) none
    (by rfl) (by rfl) (by decide)
    (by
      intro ts hts
      injection hts with h
      subst h
      decide)

/-! ### C8: field annotations contribute nothing to the tag set -/

/-- C8: the tag set is computed only after stripping field annotations, so
a complete `[k::v]` annotation — whatever `#`-prefixed tokens its key or
value contain — contributes nothing to the parsed tags: the tags of a
content with the annotation equal the tags of the content without it, and
`parseItem` on the corresponding item line returns exactly those tags.
(`A` is the part before the annotation, `B` the part after; `A` contains
no `[` — so the annotation is the first one — and no `#`.) -/
theorem tags_ignore_field_annotations
    (A B k v : List Char) (ix : Nat) (lt : String)
    (hA : ∀ x ∈ A, ¬ x = '[' ∧ ¬ x = '#')
    (hk : k ≠ []) (hka : ∀ x ∈ k, isKeyChar x = true)
    (hv : v ≠ []) (hva : ∀ x ∈ v, isValChar x = true)
    (hAnl : ∀ x ∈ A, ¬ x = '\n') (hknl : ∀ x ∈ k, ¬ x = '\n')
    (hvnl : ∀ x ∈ v, ¬ x = '\n') (hBnl : ∀ x ∈ B, ¬ x = '\n') :
    itemTags (A ++ '[' :: (k ++ ':' :: ':' :: (v ++ ']' :: B))) = itemTags (A ++ B) ∧
    Option.map KanbanItem.tags
      (parseItem (String.mk ('-' :: ' ' :: '[' :: ' ' :: ']' :: ' ' ::
        (A ++ '[' :: (k ++ ':' :: ':' :: (v ++ ']' :: B))))) ix lt) =
      some (itemTags (A ++ B)) := by
  have h1 : removeFields (A ++ '[' :: (k ++ ':' :: ':' :: (v ++ ']' :: B))) =
      A ++ removeFields B := by
    rw [removeFields_append_no_lb A _ (fun x hx => (hA x hx).1)]
    rw [removeFields_cons_some (tryFieldAt_render k v B hk hka hv hva)]
  have h2 : removeFields (A ++ B) = A ++ removeFields B :=
    removeFields_append_no_lb A B (fun x hx => (hA x hx).1)
  have htags : itemTags (A ++ '[' :: (k ++ ':' :: ':' :: (v ++ ']' :: B))) =
      itemTags (A ++ B) := by
    unfold itemTags
    rw [h1, h2]
  refine ⟨htags, ?_⟩
  have hguard : ((' ' = ' ' || ' ' = 'x') &&
      !(A ++ '[' :: (k ++ ':' :: ':' :: (v ++ ']' :: B))).isEmpty &&
      (A ++ '[' :: (k ++ ':' :: ':' :: (v ++ ']' :: B))).all
        (fun ch => !(ch = '\n'))) = true := by
    simp only [Bool.and_eq_true, Bool.or_eq_true, decide_eq_true_eq, Bool.not_eq_true',
      List.all_eq_true, List.isEmpty_eq_false]
    refine ⟨⟨Or.inl trivial, by simp⟩, ?_⟩
    intro x hx
    simp only [Bool.not_eq_true', decide_eq_false_iff_not]
    simp only [List.mem_append, List.mem_cons] at hx
    rcases hx with hx | rfl | hx | rfl | rfl | hx | rfl | hx
    · exact hAnl x hx
    · decide
    · exact hknl x hx
    · decide
    · decide
    · exact hvnl x hx
    · decide
    · exact hBnl x hx
  rw [parseItem_mk, if_pos hguard]
  show some (itemTags (A ++ '[' :: (k ++ ':' :: ':' :: (v ++ ']' :: B)))) =
    some (itemTags (A ++ B))
  rw [htags]

theorem tags_ignore_field_annotations_witness :
    itemTags ("task ".data ++ '[' :: ("agent".data ++ ':' :: ':' ::
        ("#sneaky".data ++ ']' :: " #real".data))) =
      itemTags ("task ".data ++ " #real".data) ∧
    Option.map KanbanItem.tags
      (parseItem (String.mk ('-' :: ' ' :: '[' :: ' ' :: ']' :: ' ' ::
        ("task ".data ++ '[' :: ("agent".data ++ ':' :: ':' ::
          ("#sneaky".data ++ ']' :: " #real".data))))) 0 "Ready") =
      some (itemTags ("task ".data ++ " #real".data)) :=
  tags_ignore_field_annotations "task ".data " #real".data "agent".data "#sneaky".data 0 "Ready"
    (by decide) (by decide) (by decide) (by decide) (by decide)
    (by decide) (by decide) (by decide) (by decide)

/-! ### C9 (amended): exact shape of extractable block ids -/

theorem blockIdOf_render_ws (X ws tok : List Char) (hws : ws ≠ [])
    (hwsa : ∀ x ∈ ws, isWsChar x = true)
    (htok : tok ≠ []) (htoka : ∀ x ∈ tok, isIdChar x = true) :
    blockIdOf (X ++ ws ++ '^' :: tok) = some tok := by
  have hrev : (X ++ ws ++ '^' :: tok).reverse =
      tok.reverse ++ '^' :: (ws.reverse ++ X.reverse) := by
    simp
  have htw : (tok.reverse ++ '^' :: (ws.reverse ++ X.reverse)).takeWhile isIdChar =
      tok.reverse :=
    takeWhile_append_neg _ _ _ _ (fun x hx => htoka x (by simpa using hx)) (by decide)
  have hdw : (tok.reverse ++ '^' :: (ws.reverse ++ X.reverse)).dropWhile isIdChar =
      '^' :: (ws.reverse ++ X.reverse) :=
    dropWhile_append_neg _ _ _ _ (fun x hx => htoka x (by simpa using hx)) (by decide)
  have hw2 : ¬ ((ws.reverse ++ X.reverse).takeWhile isWsChar).isEmpty := by
    cases hwr : ws.reverse with
    | nil => exact absurd (by simpa using hwr) hws
    | cons c rest =>
      have hc : isWsChar c = true := by
        have hcm : c ∈ ws.reverse := by rw [hwr]; simp
        exact hwsa c (by simpa using hcm)
      rw [List.cons_append, List.takeWhile_cons_of_pos hc]
      simp
  unfold blockIdOf
  simp [splitBlockId, hrev, htw, hdw, hw2, htok]

/-- C9 (amended): `parseItem`'s block-id extraction (`blockIdOf`) returns
`some tok` exactly when the content literally ends — with no trailing
whitespace after it — in a caret followed by the nonempty
alphanumeric/hyphen token `tok`, preceded by at least one whitespace
character.  In particular no trailing whitespace is trimmed first: a final
caret token followed by trailing whitespace yields no block id (see the
counterexample). -/
theorem blockIdOf_iff (content tok : List Char) :
    blockIdOf content = some tok ↔
      ∃ pre ws, content = pre ++ ws ++ '^' :: tok ∧ ws ≠ [] ∧
        (∀ x ∈ ws, isWsChar x = true) ∧ tok ≠ [] ∧ (∀ x ∈ tok, isIdChar x = true) := by
  constructor
  · intro h
    unfold blockIdOf at h
    cases hsb : splitBlockId content with
    | none => rw [hsb] at h; exact absurd h (by simp)
    | some pt =>
      obtain ⟨p, t⟩ := pt
      rw [hsb] at h
      have ht : t = tok := by simpa using h
      subst ht
      obtain ⟨ws, hcs, hws, hwsa, htok, htoka, -⟩ := splitBlockId_some hsb
      exact ⟨p, ws, hcs, hws, hwsa, htok, htoka⟩
  · intro h
    obtain ⟨pre, ws, hcs, hws, hwsa, htok, htoka⟩ := h
    rw [hcs]
    exact blockIdOf_render_ws pre ws tok hws hwsa htok htoka

/-! ### Collapse and trim stability -/

theorem headNotWs_spec {xs : List Char} (h : headNotWs xs = true) :
    ∀ c, xs.head? = some c → isWsChar c = false := by
  intro c hc
  unfold headNotWs at h
  rw [hc] at h
  simpa using h

theorem lastNotWs_spec {xs : List Char} (h : lastNotWs xs = true) :
    ∀ c, xs.getLast? = some c → isWsChar c = false := by
  intro c hc
  unfold lastNotWs at h
  rw [hc] at h
  simpa using h

theorem noTwoWs_tail {c : Char} {cs : List Char} (h : noTwoWs (c :: cs) = true) :
    noTwoWs cs = true := by
  cases cs with
  | nil => rfl
  | cons b rest =>
    simp only [noTwoWs, Bool.and_eq_true] at h
    exact h.2

theorem noTwoWs_head_not_ws {c b : Char} {cs : List Char}
    (h : noTwoWs (c :: b :: cs) = true) (hc : isWsChar c = true) : isWsChar b = false := by
  simp only [noTwoWs, Bool.and_eq_true, Bool.not_eq_true'] at h
  have h2 := h.1
  rw [hc] at h2
  simpa using h2

theorem collapseWs_of_noTwoWs : ∀ (cs : List Char), noTwoWs cs = true →
    collapseWs cs = cs := by
  intro cs
  induction cs with
  | nil => intro h; rfl
  | cons c cs ih =>
    intro h
    by_cases hc : isWsChar c
    · have ht : (cs.takeWhile isWsChar).isEmpty := by
        cases cs with
        | nil => rfl
        | cons b rest =>
          have hb := noTwoWs_head_not_ws h hc
          rw [List.takeWhile_cons_of_neg (by simp [hb])]
          rfl
      rw [collapseWs_cons_ws_single hc ht, ih (noTwoWs_tail h)]
    · rw [collapseWs_cons_not_ws hc, ih (noTwoWs_tail h)]

theorem collapseWs_replicate_space : ∀ (n : Nat), 1 ≤ n →
    collapseWs (List.replicate n ' ') = [' '] := by
  intro n hn
  cases n with
  | zero => omega
  | succ m =>
    rw [List.replicate_succ]
    by_cases hm : m = 0
    · subst hm
      rfl
    · have hrun : (List.replicate m ' ').takeWhile isWsChar = List.replicate m ' ' :=
        takeWhile_all_self _ _ (fun x hx => by
          rw [List.eq_of_mem_replicate hx]; decide)
      have hne : ¬ ((List.replicate m ' ').takeWhile isWsChar).isEmpty := by
        rw [hrun]
        simp [hm]
      rw [collapseWs_cons_ws_run (by decide) hne, hrun]
      rw [List.length_replicate, List.drop_replicate]
      simp only [Nat.sub_self, List.replicate_zero]
      rfl

theorem collapseWs_append_spaces : ∀ (xs : List Char) (n : Nat),
    (∀ c, xs.getLast? = some c → isWsChar c = false) → noTwoWs xs = true → 1 ≤ n →
    collapseWs (xs ++ List.replicate n ' ') = xs ++ [' '] := by
  intro xs
  induction xs with
  | nil => intro n _ _ hn; simpa using collapseWs_replicate_space n hn
  | cons x xs ih =>
    intro n hlast hnt hn
    cases xs with
    | nil =>
      have hx : isWsChar x = false := hlast x rfl
      rw [List.cons_append, collapseWs_cons_not_ws (by simp [hx])]
      rw [show ([] : List Char) ++ List.replicate n ' ' = List.replicate n ' ' by simp]
      rw [collapseWs_replicate_space n hn]
      rfl
    | cons y ys =>
      have hlast' : ∀ c, (y :: ys).getLast? = some c → isWsChar c = false := by
        intro c hc
        exact hlast c (by rw [← hc]; exact (List.getLast?_cons_cons ..).symm ▸ rfl)
      by_cases hx : isWsChar x
      · have hy : isWsChar y = false := noTwoWs_head_not_ws hnt hx
        have ht : (((y :: ys) ++ List.replicate n ' ').takeWhile isWsChar).isEmpty := by
          rw [List.cons_append, List.takeWhile_cons_of_neg (by simp [hy])]
          rfl
        rw [List.cons_append, collapseWs_cons_ws_single hx ht]
        rw [ih n hlast' (noTwoWs_tail hnt) hn]
        rfl
      · rw [List.cons_append, collapseWs_cons_not_ws hx]
        rw [ih n hlast' (noTwoWs_tail hnt) hn]
        rfl

theorem jsTrim_of_stable (xs : List Char)
    (hhead : ∀ c, xs.head? = some c → isWsChar c = false)
    (hlast : ∀ c, xs.getLast? = some c → isWsChar c = false) :
    jsTrim xs = xs := by
  unfold jsTrim
  rw [dropWhile_head_neg _ _ hhead]
  rw [dropWhile_head_neg _ _ (fun c hc => hlast c (by rwa [List.head?_reverse] at hc))]
  simp

theorem jsTrim_append_space (xs : List Char)
    (hhead : ∀ c, xs.head? = some c → isWsChar c = false)
    (hlast : ∀ c, xs.getLast? = some c → isWsChar c = false) :
    jsTrim (xs ++ [' ']) = xs := by
  cases xs with
  | nil => rfl
  | cons x xs0 =>
    have hx : isWsChar x = false := hhead x rfl
    unfold jsTrim
    rw [List.cons_append, List.dropWhile_cons_of_neg (by simp [hx])]
    rw [show (x :: (xs0 ++ [' '])).reverse = ' ' :: (x :: xs0).reverse by simp]
    rw [List.dropWhile_cons_of_pos (by decide)]
    rw [dropWhile_head_neg _ _ (fun c hc => hlast c (by rwa [List.head?_reverse] at hc))]
    simp

/-! ### Field-record algebra -/

theorem foldl_ext_mem {α β : Type} (f g : α → β → α) (l : List β)
    (h : ∀ (a : α) (b : β), b ∈ l → f a b = g a b) :
    ∀ (init : α), l.foldl f init = l.foldl g init := by
  induction l with
  | nil => intro init; rfl
  | cons b bs ih =>
    intro init
    rw [List.foldl_cons, List.foldl_cons, h init b (by simp)]
    exact ih (fun a b2 hb => h a b2 (by simp [hb])) _

theorem setField_keys_nodup {fs : List (String × String)} {k v : String}
    (h : (fs.map Prod.fst).Nodup) : ((setField fs k v).map Prod.fst).Nodup := by
  unfold setField
  by_cases hp : fs.any (fun p => p.1 == k)
  · rw [if_pos hp]
    have hmm : (fs.map (fun p => if p.1 == k then (k, v) else p)).map Prod.fst =
        fs.map Prod.fst := by
      rw [List.map_map]
      apply List.map_congr_left
      intro p _
      by_cases hk : p.1 == k
      · simp only [Function.comp_apply, if_pos hk]
        exact (eq_of_beq hk).symm
      · rw [Function.comp_apply, if_neg hk]
    rw [hmm]
    exact h
  · rw [if_neg hp]
    rw [List.map_append]
    apply List.Nodup.append h (by simp)
    intro a ha hb
    simp only [List.map_cons, List.map_nil, List.mem_singleton] at hb
    subst hb
    rw [List.mem_map] at ha
    obtain ⟨p, hp2, hp3⟩ := ha
    apply hp
    rw [List.any_eq_true]
    exact ⟨p, hp2, by simp [hp3]⟩

theorem mergeFields_cons (fs : List (String × String)) (p : String × String)
    (ps : List (String × String)) :
    mergeFields fs (p :: ps) = mergeFields (setField fs p.1 p.2) ps := rfl

theorem mergeFields_nodup : ∀ (patch fs : List (String × String)),
    (fs.map Prod.fst).Nodup → ((mergeFields fs patch).map Prod.fst).Nodup := by
  intro patch
  induction patch with
  | nil => intro fs h; exact h
  | cons p ps ih =>
    intro fs h
    rw [mergeFields_cons]
    exact ih _ (setField_keys_nodup h)

theorem foldl_setField_of_nodup : ∀ (pairs acc : List (String × String)),
    (pairs.map Prod.fst).Nodup →
    (∀ kv ∈ pairs, ∀ kv2 ∈ acc, ¬ kv2.1 = kv.1) →
    pairs.foldl (fun a p => setField a p.1 p.2) acc = acc ++ pairs := by
  intro pairs
  induction pairs with
  | nil => intro acc _ _; simp
  | cons p ps ih =>
    intro acc hnd hdisj
    have hndt : (ps.map Prod.fst).Nodup := by
      rw [List.map_cons, List.nodup_cons] at hnd
      exact hnd.2
    have hnotp : p.1 ∉ ps.map Prod.fst := by
      rw [List.map_cons, List.nodup_cons] at hnd
      exact hnd.1
    rw [List.foldl_cons]
    have hnoany : ¬ (acc.any fun q => q.1 == p.1) = true := by
      intro hany
      rw [List.any_eq_true] at hany
      obtain ⟨q, hq, hbeq⟩ := hany
      exact hdisj p (by simp) q hq (eq_of_beq hbeq)
    have hset : setField acc p.1 p.2 = acc ++ [p] := by
      unfold setField
      rw [if_neg hnoany]
    rw [hset]
    rw [ih (acc ++ [p]) hndt ?_]
    · simp
    · intro kv hkv kv2 hkv2
      rcases List.mem_append.mp hkv2 with h2 | h2
      · exact hdisj kv (by simp [hkv]) kv2 h2
      · have hp2 : kv2 = p := by simpa using h2
        subst hp2
        intro he
        exact hnotp (he ▸ List.mem_map_of_mem Prod.fst hkv)

theorem mk_data (s : String) : String.mk s.data = s := rfl

theorem fieldsOf_of_scan_eq {C : List Char} {fs : List (String × String)}
    (hscan : fieldScan C = fs.map (fun kv => (kv.1.data, kv.2.data)))
    (hfs : ∀ kv ∈ fs, wfKey kv.1 = true ∧ wfVal kv.2 = true)
    (hnd : (fs.map Prod.fst).Nodup) :
    fieldsOf C = fs := by
  unfold fieldsOf
  rw [hscan, List.foldl_map]
  rw [foldl_ext_mem _ (fun a kv => setField a kv.1 kv.2) fs ?_ []]
  · exact foldl_setField_of_nodup fs [] hnd (by simp)
  · intro a kv hkv
    obtain ⟨hk, hv⟩ := hfs kv hkv
    unfold wfKey at hk
    unfold wfVal at hv
    simp only [Bool.and_eq_true] at hk hv
    have htk : jsTrim kv.1.data = kv.1.data :=
      jsTrim_of_stable _ (headNotWs_spec hk.1.2) (lastNotWs_spec hk.2)
    have htv : jsTrim kv.2.data = kv.2.data :=
      jsTrim_of_stable _ (headNotWs_spec hv.1.2) (lastNotWs_spec hv.2)
    rw [htk, htv, mk_data, mk_data]

theorem lookupField_of_mem_nodup {fs : List (String × String)} {p : String × String}
    (hnd : (fs.map Prod.fst).Nodup) (hp : p ∈ fs) : lookupField fs p.1 = some p.2 := by
  induction fs with
  | nil => simp at hp
  | cons q fs ih =>
    rcases List.mem_cons.mp hp with rfl | hp2
    · unfold lookupField
      rw [List.find?_cons_of_pos _ (by simp)]
      rfl
    · have hq : ¬ (q.1 == p.1) = true := by
        rw [List.map_cons, List.nodup_cons] at hnd
        intro hbeq
        exact hnd.1 ((eq_of_beq hbeq) ▸ List.mem_map_of_mem Prod.fst hp2)
      unfold lookupField
      rw [show List.find? (fun r => r.1 == p.1) (q :: fs) =
            List.find? (fun r => r.1 == p.1) fs from List.find?_cons_of_neg fs hq]
      have hndt : (fs.map Prod.fst).Nodup := by
        rw [List.map_cons, List.nodup_cons] at hnd
        exact hnd.2
      exact ih hndt hp2

theorem setField_self {fs : List (String × String)} {k v : String}
    (hnd : (fs.map Prod.fst).Nodup) (hlk : lookupField fs k = some v) :
    setField fs k v = fs := by
  have hany : fs.any (fun p => p.1 == k) = true := by
    unfold lookupField at hlk
    cases hf : fs.find? (fun p => p.1 == k) with
    | none => rw [hf] at hlk; simp at hlk
    | some q =>
      rw [List.any_eq_true]
      have hfq := List.find?_some hf
      exact ⟨q, List.mem_of_find?_eq_some hf, hfq⟩
  unfold setField
  rw [if_pos hany]
  have hpt : ∀ p ∈ fs, (if p.1 == k then (k, v) else p) = p := by
    intro p hp
    by_cases hbeq : p.1 == k
    · rw [if_pos hbeq]
      have hk2 : p.1 = k := eq_of_beq hbeq
      have hlp := lookupField_of_mem_nodup hnd hp
      rw [hk2] at hlp
      rw [hlp] at hlk
      have hv : v = p.2 := by simpa using hlk.symm
      obtain ⟨p1, p2⟩ := p
      simp only at hk2 hv
      rw [← hk2, hv]
    · rw [if_neg hbeq]
  rw [List.map_congr_left hpt]
  exact List.map_id fs

theorem findP_cons_pos {α : Type} (p : α → Bool) (a : α) (l : List α) (h : p a = true) :
    List.find? p (a :: l) = some a := List.find?_cons_of_pos l h

theorem findP_cons_neg {α : Type} (p : α → Bool) (a : α) (l : List α) (h : ¬ p a = true) :
    List.find? p (a :: l) = List.find? p l := List.find?_cons_of_neg l h

theorem lookup_append_single_ne {k v k2 : String} (hne : ¬ k2 = k) :
    ∀ (fs : List (String × String)),
      lookupField (fs ++ [(k, v)]) k2 = lookupField fs k2 := by
  intro fs
  induction fs with
  | nil =>
    unfold lookupField
    rw [List.nil_append, findP_cons_neg (fun p => p.1 == k2) (k, v) [] (by
      simp only [beq_iff_eq]
      exact fun h => hne h.symm)]
  | cons q fs ih =>
    by_cases hq : (q.1 == k2)
    · unfold lookupField
      rw [List.cons_append, findP_cons_pos (fun p => p.1 == k2) q _ hq,
        findP_cons_pos (fun p => p.1 == k2) q _ hq]
    · unfold lookupField
      rw [List.cons_append, findP_cons_neg (fun p => p.1 == k2) q _ hq,
        findP_cons_neg (fun p => p.1 == k2) q _ hq]
      exact ih

theorem lookup_map_set_ne {k v k2 : String} (hne : ¬ k2 = k) :
    ∀ (fs : List (String × String)),
      lookupField (fs.map (fun p => if p.1 == k then (k, v) else p)) k2 =
        lookupField fs k2 := by
  intro fs
  induction fs with
  | nil => rfl
  | cons q fs ih =>
    rw [List.map_cons]
    by_cases hq : (q.1 == k)
    · have hk2 : ¬ ((k, v).1 == k2) = true := by
        simp only [beq_iff_eq]
        exact fun h => hne h.symm
      have hq2 : ¬ (q.1 == k2) = true := by
        simp only [beq_iff_eq]
        intro h
        exact hne ((h.symm).trans (eq_of_beq hq))
      unfold lookupField
      rw [if_pos hq, findP_cons_neg (fun p => p.1 == k2) (k, v) _ hk2,
        findP_cons_neg (fun p => p.1 == k2) q _ hq2]
      exact ih
    · unfold lookupField
      rw [if_neg hq]
      by_cases hq2 : (q.1 == k2)
      · rw [findP_cons_pos (fun p => p.1 == k2) q _ hq2,
          findP_cons_pos (fun p => p.1 == k2) q _ hq2]
      · rw [findP_cons_neg (fun p => p.1 == k2) q _ hq2,
          findP_cons_neg (fun p => p.1 == k2) q _ hq2]
        exact ih

theorem lookupField_setField_ne {fs : List (String × String)} {k v k2 : String}
    (hne : ¬ k2 = k) :
    lookupField (setField fs k v) k2 = lookupField fs k2 := by
  unfold setField
  by_cases hp : fs.any (fun p => p.1 == k)
  · rw [if_pos hp]
    exact lookup_map_set_ne hne fs
  · rw [if_neg hp]
    exact lookup_append_single_ne hne fs

/-! ### Character-class facts -/

theorem isTagChar_facts {c : Char} (h : isTagChar c = true) :
    ¬ c = '\n' ∧ ¬ c = '#' ∧ ¬ c = '[' ∧ isWsChar c = false := by
  refine ⟨?_, ?_, ?_, ?_⟩
  · intro he; subst he; exact absurd h (by decide)
  · intro he; subst he; exact absurd h (by decide)
  · intro he; subst he; exact absurd h (by decide)
  · cases hb : isWsChar c
    · rfl
    · exfalso
      simp only [isWsChar, Bool.or_eq_true, decide_eq_true_eq] at hb
      rcases hb with ((((h1 | h1) | h1) | h1) | h1) | h1 <;>
        (subst h1; exact absurd h (by decide))

theorem isIdChar_facts {c : Char} (h : isIdChar c = true) :
    ¬ c = '\n' ∧ ¬ c = '#' ∧ ¬ c = '[' ∧ isWsChar c = false := by
  refine ⟨?_, ?_, ?_, ?_⟩
  · intro he; subst he; exact absurd h (by decide)
  · intro he; subst he; exact absurd h (by decide)
  · intro he; subst he; exact absurd h (by decide)
  · cases hb : isWsChar c
    · rfl
    · exfalso
      simp only [isWsChar, Bool.or_eq_true, decide_eq_true_eq] at hb
      rcases hb with ((((h1 | h1) | h1) | h1) | h1) | h1 <;>
        (subst h1; exact absurd h (by decide))

/-! ### Shapes of the well-formedness predicates -/

theorem wfTag_shape {t : String} (h : wfTag t = true) :
    t.data ≠ [] ∧ ∀ x ∈ t.data, isTagChar x = true := by
  simp only [wfTag, Bool.and_eq_true, Bool.not_eq_true', List.isEmpty_eq_false,
    List.all_eq_true] at h
  exact h

theorem wfId_shape {b : String} (h : wfId b = true) :
    b.data ≠ [] ∧ ∀ x ∈ b.data, isIdChar x = true := by
  simp only [wfId, Bool.and_eq_true, Bool.not_eq_true', List.isEmpty_eq_false,
    List.all_eq_true] at h
  exact h

theorem wfKey_shape {k : String} (h : wfKey k = true) :
    k.data ≠ [] ∧ (∀ x ∈ k.data, isKeyChar x = true) ∧ (∀ x ∈ k.data, ¬ x = '\n') := by
  simp only [wfKey, Bool.and_eq_true, Bool.not_eq_true', List.isEmpty_eq_false,
    List.all_eq_true, decide_eq_false_iff_not] at h
  exact ⟨h.1.1.1.1, h.1.1.1.2, h.1.1.2⟩

theorem wfVal_shape {v : String} (h : wfVal v = true) :
    v.data ≠ [] ∧ (∀ x ∈ v.data, isValChar x = true) ∧ (∀ x ∈ v.data, ¬ x = '\n') := by
  simp only [wfVal, Bool.and_eq_true, Bool.not_eq_true', List.isEmpty_eq_false,
    List.all_eq_true, decide_eq_false_iff_not] at h
  refine ⟨h.1.1.1, fun x hx => ?_, fun x hx => (h.1.1.2 x hx).2⟩
  have h2 := (h.1.1.2 x hx).1
  simp [isValChar, h2]

theorem wfText_shape {t : String} (h : wfText t = true) :
    (∀ x ∈ t.data, ¬ x = '[') ∧ (∀ x ∈ t.data, ¬ x = '#') ∧ (∀ x ∈ t.data, ¬ x = '\n') ∧
    (∀ c, t.data.head? = some c → isWsChar c = false) ∧
    (∀ c, t.data.getLast? = some c → isWsChar c = false) ∧ noTwoWs t.data = true := by
  simp only [wfText, Bool.and_eq_true, Bool.not_eq_true', List.all_eq_true,
    decide_eq_false_iff_not] at h
  exact ⟨fun x hx => ((h.1.1.1 x hx).1).1, fun x hx => ((h.1.1.1 x hx).1).2,
    fun x hx => (h.1.1.1 x hx).2, headNotWs_spec h.1.1.2, lastNotWs_spec h.1.2, h.2⟩

theorem fieldsAll_shape {fs : List (String × String)}
    (h : fs.all (fun kv => wfKey kv.1 && wfVal kv.2) = true) :
    ∀ kv ∈ fs, wfKey kv.1 = true ∧ wfVal kv.2 = true := by
  rw [List.all_eq_true] at h
  intro kv hkv
  have h2 := h kv hkv
  simpa [Bool.and_eq_true] using h2

/-! ### Status-tag algebra -/

theorem tagName_eq (status : String) :
    (if status = "complete" then "complete" else status) = status := by
  split
  · exact (by assumption : status = "complete").symm
  · rfl

theorem updateStatusTags_eq (tags : List String) (status : String) :
    updateStatusTags tags status =
      tags.filter (fun t => !(STATUS_TAGS.contains t)) ++
        (if STATUS_TAGS.contains status then [status] else []) := by
  unfold updateStatusTags
  rw [tagName_eq]
  split <;> simp_all

theorem filter_status_idem (ts : List String) :
    (ts.filter (fun t => !(STATUS_TAGS.contains t))).filter
        (fun t => !(STATUS_TAGS.contains t)) =
      ts.filter (fun t => !(STATUS_TAGS.contains t)) := by
  rw [List.filter_eq_self]
  intro a ha
  have h2 := List.of_mem_filter ha
  exact h2

theorem updateStatusTags_idem (ts : List String) (s : String) :
    updateStatusTags (updateStatusTags ts s) s = updateStatusTags ts s := by
  by_cases hc : STATUS_TAGS.contains s
  · rw [updateStatusTags_eq ts s, if_pos hc]
    rw [updateStatusTags_eq _ s, if_pos hc]
    rw [List.filter_append, filter_status_idem]
    have hmem : s ∈ STATUS_TAGS := List.mem_of_elem_eq_true hc
    have hone : List.filter (fun t => !(STATUS_TAGS.contains t)) [s] = [] := by
      simp [hmem]
    rw [hone, List.append_nil]
  · rw [updateStatusTags_eq ts s, if_neg hc, List.append_nil]
    rw [updateStatusTags_eq _ s, if_neg hc, List.append_nil]
    exact filter_status_idem ts

theorem mem_updateStatusTags {ts : List String} {s t : String}
    (ht : t ∈ updateStatusTags ts s) : t ∈ ts ∨ t ∈ STATUS_TAGS := by
  rw [updateStatusTags_eq] at ht
  rcases List.mem_append.mp ht with h | h
  · exact Or.inl (List.mem_of_mem_filter h)
  · right
    by_cases hc : STATUS_TAGS.contains s
    · rw [if_pos hc] at h
      have hts : t = s := by simpa using h
      subst hts
      exact List.mem_of_elem_eq_true hc
    · rw [if_neg hc] at h
      simp at h

theorem statusTags_wf {t : String} (ht : t ∈ STATUS_TAGS) : wfTag t = true := by
  simp only [STATUS_TAGS, List.mem_cons, List.not_mem_nil, or_false] at ht
  rcases ht with rfl | rfl | rfl | rfl <;> decide

theorem updateStatusTags_wf {ts : List String} {s : String}
    (h : ∀ t ∈ ts, wfTag t = true) : ∀ t ∈ updateStatusTags ts s, wfTag t = true := by
  intro t ht
  rcases mem_updateStatusTags ht with h2 | h2
  · exact h t h2
  · exact statusTags_wf h2

/-! ### Rendered tag lists: characters and last character -/

theorem getLastSome_mem {α : Type} {l : List α} {a : α} (h : l.getLast? = some a) :
    a ∈ l := by
  obtain ⟨ys, hys⟩ := List.getLast?_eq_some_iff.mp h
  subst hys
  simp

theorem renderTagList_ne_nil {tags : List String} (h : tags ≠ []) :
    renderTagList tags ≠ [] := by
  cases tags with
  | nil => exact absurd rfl h
  | cons t ts =>
    cases ts with
    | nil => simp [renderTagList]
    | cons t2 ts2 => simp [renderTagList]

theorem renderTagList_chars : ∀ (tags : List String),
    (∀ t ∈ tags, ∀ x ∈ t.data, isTagChar x = true) →
    ∀ x ∈ renderTagList tags, x = '#' ∨ x = ' ' ∨ isTagChar x = true := by
  intro tags
  induction tags with
  | nil => intro _ x hx; simp [renderTagList] at hx
  | cons t ts ih =>
    intro h x hx
    cases ts with
    | nil =>
      rcases List.mem_cons.mp hx with rfl | hx2
      · exact Or.inl rfl
      · exact Or.inr (Or.inr (h t (by simp) x hx2))
    | cons t2 ts2 =>
      rcases List.mem_cons.mp hx with rfl | hx2
      · exact Or.inl rfl
      · rcases List.mem_append.mp hx2 with hx3 | hx3
        · exact Or.inr (Or.inr (h t (by simp) x hx3))
        · rcases List.mem_cons.mp hx3 with rfl | hx4
          · exact Or.inr (Or.inl rfl)
          · exact ih (fun a ha => h a (by simp [ha])) x hx4

theorem renderTags_chars (tags : List String)
    (h : ∀ t ∈ tags, ∀ x ∈ t.data, isTagChar x = true) :
    ∀ x ∈ renderTags tags, x = '#' ∨ x = ' ' ∨ isTagChar x = true := by
  intro x hx
  unfold renderTags at hx
  split at hx
  · simp at hx
  · rcases List.mem_cons.mp hx with rfl | hx2
    · exact Or.inr (Or.inl rfl)
    · exact renderTagList_chars tags h x hx2

theorem renderTagList_getLast : ∀ (tags : List String),
    (∀ t ∈ tags, wfTag t = true) → tags ≠ [] →
    ∀ c, (renderTagList tags).getLast? = some c → isTagChar c = true := by
  intro tags
  induction tags with
  | nil => intro _ hne; exact absurd rfl hne
  | cons t ts ih =>
    intro hwf _ c hc
    cases ts with
    | nil =>
      obtain ⟨hdne, hall⟩ := wfTag_shape (hwf t (by simp))
      rw [show renderTagList [t] = ['#'] ++ t.data by simp [renderTagList],
        List.getLast?_append] at hc
      cases hlast : t.data.getLast? with
      | none => exact absurd (List.getLast?_eq_none_iff.mp hlast) hdne
      | some y =>
        rw [hlast] at hc
        simp only [Option.or_some, Option.some.injEq] at hc
        subst hc
        exact hall y (getLastSome_mem hlast)
    | cons t2 ts2 =>
      have hRLne : renderTagList (t2 :: ts2) ≠ [] := renderTagList_ne_nil (by simp)
      rw [show renderTagList (t :: t2 :: ts2) =
          ('#' :: t.data ++ [' ']) ++ renderTagList (t2 :: ts2) by simp [renderTagList],
        List.getLast?_append] at hc
      cases hlast : (renderTagList (t2 :: ts2)).getLast? with
      | none => exact absurd (List.getLast?_eq_none_iff.mp hlast) hRLne
      | some y =>
        rw [hlast] at hc
        simp only [Option.or_some, Option.some.injEq] at hc
        subst hc
        exact ih (fun a ha => hwf a (by simp [ha])) (by simp) y hlast

/-! ### The update patch in the field record -/

theorem lookup_status_one (F : List (String × String)) (s : String) :
    lookupField (mergeFields F [("status", s)]) "status" = some s := by
  show lookupField (setField F "status" s) "status" = some s
  exact lookupField_setField F "status" s

theorem lookup_status_two (F : List (String × String)) (s n : String) :
    lookupField (mergeFields F [("status", s), ("note", n)]) "status" = some s := by
  show lookupField (setField (setField F "status" s) "note" n) "status" = some s
  rw [lookupField_setField_ne (show ¬ "status" = "note" by decide)]
  exact lookupField_setField F "status" s

theorem merge_patch_self_one (F : List (String × String)) (s : String)
    (hnd : (F.map Prod.fst).Nodup) :
    mergeFields (mergeFields F [("status", s)]) [("status", s)] =
      mergeFields F [("status", s)] := by
  have hnd2 := mergeFields_nodup [("status", s)] F hnd
  show setField (mergeFields F [("status", s)]) "status" s = mergeFields F [("status", s)]
  exact setField_self hnd2 (lookup_status_one F s)

theorem merge_patch_self_two (F : List (String × String)) (s n : String)
    (hnd : (F.map Prod.fst).Nodup) :
    mergeFields (mergeFields F [("status", s), ("note", n)]) [("status", s), ("note", n)] =
      mergeFields F [("status", s), ("note", n)] := by
  have hnd2 := mergeFields_nodup [("status", s), ("note", n)] F hnd
  have h1 : setField (mergeFields F [("status", s), ("note", n)]) "status" s =
      mergeFields F [("status", s), ("note", n)] :=
    setField_self hnd2 (lookup_status_two F s n)
  have hlkN : lookupField (mergeFields F [("status", s), ("note", n)]) "note" = some n := by
    show lookupField (setField (setField F "status" s) "note" n) "note" = some n
    exact lookupField_setField _ "note" n
  show setField (setField (mergeFields F [("status", s), ("note", n)]) "status" s) "note" n =
      mergeFields F [("status", s), ("note", n)]
  rw [h1]
  exact setField_self hnd2 hlkN

theorem updateLine_fields_eq_none (x y : KanbanItem) (s : String)
    (h1 : x.checked = y.checked) (h2 : x.text = y.text) (h3 : x.blockId = y.blockId)
    (h4 : mergeFields x.fields [("status", s)] = mergeFields y.fields [("status", s)])
    (h5 : updateStatusTags x.tags s = updateStatusTags y.tags s) :
    updateLine x s none = updateLine y s none := by
  show buildItemLine x [("status", s)] (some (updateStatusTags x.tags s)) none =
    buildItemLine y [("status", s)] (some (updateStatusTags y.tags s)) none
  unfold buildItemLine
  rw [h1, h2, h3, h4, h5]
  simp only [Option.getD_some, Option.getD_none]

theorem updateLine_fields_eq_some (x y : KanbanItem) (s n : String)
    (h1 : x.checked = y.checked) (h2 : x.text = y.text) (h3 : x.blockId = y.blockId)
    (h4 : mergeFields x.fields [("status", s), ("note", n)] =
      mergeFields y.fields [("status", s), ("note", n)])
    (h5 : updateStatusTags x.tags s = updateStatusTags y.tags s) :
    updateLine x s (some n) = updateLine y s (some n) := by
  show buildItemLine x [("status", s), ("note", n)] (some (updateStatusTags x.tags s)) none =
    buildItemLine y [("status", s), ("note", n)] (some (updateStatusTags y.tags s)) none
  unfold buildItemLine
  rw [h1, h2, h3, h4, h5]
  simp only [Option.getD_some, Option.getD_none]

/-! ### The display text of a rebuilt line -/

theorem text_of_rebuilt (T : List Char) (NT : List String) (MLen : Nat) (bid : String)
    (hThash : ∀ x ∈ T, ¬ x = '#')
    (hThead : ∀ c, T.head? = some c → isWsChar c = false)
    (hTlast : ∀ c, T.getLast? = some c → isWsChar c = false)
    (hTtwo : noTwoWs T = true)
    (hNTsh : ∀ t ∈ NT, t.data ≠ [] ∧ ∀ x ∈ t.data, isTagChar x = true)
    (hNTwf : ∀ t ∈ NT, wfTag t = true)
    (hbne : bid.data ≠ []) (hbid : ∀ x ∈ bid.data, isIdChar x = true) :
    String.mk (jsTrim (collapseWs (removeTags (removeBlockId
        (T ++ (List.replicate MLen ' ' ++ (renderTags NT ++ (' ' :: '^' :: bid.data)))))))) =
      String.mk T := by
  cases NT with
  | nil =>
    have hsplit : splitBlockId
        (T ++ (List.replicate MLen ' ' ++ (renderTags [] ++ (' ' :: '^' :: bid.data)))) =
        some (T, bid.data) := by
      rw [show T ++ (List.replicate MLen ' ' ++ (renderTags [] ++ (' ' :: '^' :: bid.data))) =
          T ++ (List.replicate MLen ' ' ++ [' ']) ++ '^' :: bid.data by simp [renderTags]]
      exact splitBlockId_render T (List.replicate MLen ' ' ++ [' ']) bid.data
        (by simp)
        (by
          intro x hx
          rcases List.mem_append.mp hx with hx | hx
          · rw [List.eq_of_mem_replicate hx]; decide
          · rw [List.mem_singleton.mp hx]; decide)
        hbne hbid hTlast
    rw [show removeBlockId
        (T ++ (List.replicate MLen ' ' ++ (renderTags [] ++ (' ' :: '^' :: bid.data)))) = T from by
      unfold removeBlockId
      rw [hsplit]]
    rw [removeTags_no_hash T hThash, collapseWs_of_noTwoWs T hTtwo,
      jsTrim_of_stable T hThead hTlast]
  | cons t ts =>
    have hRLlast : ∀ c,
        ((T ++ List.replicate MLen ' ') ++ renderTags (t :: ts)).getLast? = some c →
        isWsChar c = false := by
      intro c hc
      have hRLne : renderTagList (t :: ts) ≠ [] := renderTagList_ne_nil (by simp)
      rw [List.getLast?_append, renderTags_cons,
        show (' ' :: renderTagList (t :: ts)) = [' '] ++ renderTagList (t :: ts) by simp,
        List.getLast?_append] at hc
      cases hlast : (renderTagList (t :: ts)).getLast? with
      | none => exact absurd (List.getLast?_eq_none_iff.mp hlast) hRLne
      | some y =>
        rw [hlast] at hc
        simp only [Option.or_some, Option.some.injEq] at hc
        subst hc
        have hty := renderTagList_getLast (t :: ts) hNTwf (by simp) y hlast
        exact (isTagChar_facts hty).2.2.2
    have hsplit : splitBlockId
        (T ++ (List.replicate MLen ' ' ++ (renderTags (t :: ts) ++ (' ' :: '^' :: bid.data)))) =
        some ((T ++ List.replicate MLen ' ') ++ renderTags (t :: ts), bid.data) := by
      rw [show T ++ (List.replicate MLen ' ' ++ (renderTags (t :: ts) ++ (' ' :: '^' :: bid.data))) =
          ((T ++ List.replicate MLen ' ') ++ renderTags (t :: ts)) ++ [' '] ++ '^' :: bid.data
          by simp]
      exact splitBlockId_render _ [' '] bid.data (by simp)
        (by intro x hx; rw [List.mem_singleton.mp hx]; decide) hbne hbid hRLlast
    rw [show removeBlockId
        (T ++ (List.replicate MLen ' ' ++ (renderTags (t :: ts) ++ (' ' :: '^' :: bid.data)))) =
        (T ++ List.replicate MLen ' ') ++ renderTags (t :: ts) from by
      unfold removeBlockId
      rw [hsplit]]
    have hXnohash : ∀ x ∈ T ++ List.replicate MLen ' ', ¬ x = '#' := by
      intro x hx
      rcases List.mem_append.mp hx with hx | hx
      · exact hThash x hx
      · rw [List.eq_of_mem_replicate hx]; decide
    rw [show (T ++ List.replicate MLen ' ') ++ renderTags (t :: ts) =
        (T ++ List.replicate MLen ' ') ++ (renderTags (t :: ts) ++ []) by simp]
    rw [removeTags_append_no_hash _ _ hXnohash]
    rw [removeTags_renderTags (t :: ts) [] hNTsh (fun y hy => by simp at hy)]
    rw [show removeTags ([] : List Char) = [] from rfl, List.append_nil]
    rw [show (T ++ List.replicate MLen ' ') ++ List.replicate (t :: ts).length ' ' =
        T ++ List.replicate (MLen + (t :: ts).length) ' ' by
      rw [List.append_assoc, ← List.replicate_add]]
    rw [collapseWs_append_spaces T (MLen + (t :: ts).length) hTlast hTtwo (by
      simp only [List.length_cons]
      omega)]
    rw [jsTrim_append_space T hThead hTlast]

/-! ### A rebuilt line re-parses to its components -/

theorem parse_rebuilt_line (T : List Char) (M : List (String × String)) (NT : List String)
    (bid : String) (c : Char) (ix : Nat) (lt : String)
    (hT : wfText (String.mk T) = true)
    (hM : ∀ kv ∈ M, wfKey kv.1 = true ∧ wfVal kv.2 = true)
    (hMnd : (M.map Prod.fst).Nodup)
    (hNT : ∀ t ∈ NT, wfTag t = true)
    (hbw : wfId bid = true)
    (hc : c = ' ' ∨ c = 'x') :
    parseItem (String.mk ('-' :: ' ' :: '[' :: c :: ']' :: ' ' ::
        (T ++ renderFields M ++ renderTags NT ++ (' ' :: '^' :: bid.data)))) ix lt =
      some { lineIndex := ix,
             raw := String.mk ('-' :: ' ' :: '[' :: c :: ']' :: ' ' ::
               (T ++ renderFields M ++ renderTags NT ++ (' ' :: '^' :: bid.data))),
             checked := decide (c = 'x'), text := String.mk T, blockId := some bid,
             fields := M, tags := NT, laneTitle := lt } := by
  obtain ⟨hTlb, hThash, hTnl, hThead, hTlast, hTtwo⟩ := wfText_shape hT
  obtain ⟨hbne, hbid⟩ := wfId_shape hbw
  have hMsh : ∀ kv ∈ M, kv.1.data ≠ [] ∧ (∀ x ∈ kv.1.data, isKeyChar x = true) ∧
      kv.2.data ≠ [] ∧ (∀ x ∈ kv.2.data, isValChar x = true) := by
    intro kv hkv
    obtain ⟨hk, hv⟩ := hM kv hkv
    obtain ⟨k1, k2, k3⟩ := wfKey_shape hk
    obtain ⟨v1, v2, v3⟩ := wfVal_shape hv
    exact ⟨k1, k2, v1, v2⟩
  have hMnl : ∀ kv ∈ M, (∀ x ∈ kv.1.data, ¬ x = '\n') ∧ (∀ x ∈ kv.2.data, ¬ x = '\n') := by
    intro kv hkv
    obtain ⟨hk, hv⟩ := hM kv hkv
    exact ⟨(wfKey_shape hk).2.2, (wfVal_shape hv).2.2⟩
  have hNTsh : ∀ t ∈ NT, t.data ≠ [] ∧ ∀ x ∈ t.data, isTagChar x = true :=
    fun t ht => wfTag_shape (hNT t ht)
  set C := T ++ renderFields M ++ renderTags NT ++ (' ' :: '^' :: bid.data) with hCdef
  have hCr : C = T ++ (renderFields M ++ (renderTags NT ++ (' ' :: '^' :: bid.data))) := by
    rw [hCdef]
    simp
  have hrT_chars := renderTags_chars NT (fun t ht => (hNTsh t ht).2)
  have hrTB_nolb : ∀ x ∈ renderTags NT ++ (' ' :: '^' :: bid.data), ¬ x = '[' := by
    intro x hx
    rcases List.mem_append.mp hx with hx | hx
    · rcases hrT_chars x hx with rfl | rfl | htc
      · decide
      · decide
      · exact (isTagChar_facts htc).2.2.1
    · rcases List.mem_cons.mp hx with rfl | hx
      · decide
      · rcases List.mem_cons.mp hx with rfl | hx
        · decide
        · exact (isIdChar_facts (hbid x hx)).2.2.1
  have hscanC : fieldScan C = M.map (fun kv => (kv.1.data, kv.2.data)) := by
    rw [hCr, fieldScan_append_no_lb T _ hTlb, fieldScan_renderFields M _ hMsh,
      fieldScan_no_lb _ hrTB_nolb, List.append_nil]
  have hfieldsC : fieldsOf C = M := fieldsOf_of_scan_eq hscanC hM hMnd
  have hrmF : removeFields C =
      T ++ (List.replicate M.length ' ' ++ (renderTags NT ++ (' ' :: '^' :: bid.data))) := by
    rw [hCr, removeFields_append_no_lb T _ hTlb, removeFields_renderFields M _ hMsh,
      removeFields_no_lb _ hrTB_nolb]
  have hrep_nohash : ∀ x ∈ List.replicate M.length ' ', ¬ x = '#' := by
    intro x hx
    rw [List.eq_of_mem_replicate hx]
    decide
  have hB_head : ∀ y, (' ' :: '^' :: bid.data).head? = some y → isTagChar y = false := by
    intro y hy
    simp only [List.head?_cons, Option.some.injEq] at hy
    subst hy
    decide
  have hB_nohash : ∀ x ∈ (' ' :: '^' :: bid.data), ¬ x = '#' := by
    intro x hx
    rcases List.mem_cons.mp hx with rfl | hx
    · decide
    · rcases List.mem_cons.mp hx with rfl | hx
      · decide
      · exact (isIdChar_facts (hbid x hx)).2.1
  have htagScanC : tagScan (removeFields C) = NT.map String.data := by
    rw [hrmF, tagScan_append_no_hash T _ hThash, tagScan_append_no_hash _ _ hrep_nohash,
      tagScan_renderTags NT _ hNTsh hB_head, tagScan_no_hash _ hB_nohash, List.append_nil]
  have htagsC : itemTags C = NT := by
    unfold itemTags
    rw [htagScanC, List.map_map,
      List.map_congr_left (fun t ht => rfl : ∀ t ∈ NT, (String.mk ∘ String.data) t = t)]
    exact List.map_id NT
  have hblockC : blockIdOf C = some bid.data := by
    rw [hCdef]
    exact blockIdOf_render_weak (T ++ renderFields M ++ renderTags NT) bid.data hbne hbid
  have hblockCmap : Option.map String.mk (blockIdOf C) = some bid := by
    rw [hblockC]
    rfl
  have htextC : itemText C = String.mk T := by
    unfold itemText
    rw [hrmF]
    exact text_of_rebuilt T NT M.length bid hThash hThead hTlast hTtwo hNTsh hNT hbne hbid
  have hCne : C ≠ [] := by
    rw [hCr]
    simp
  have hCnl : ∀ x ∈ C, ¬ x = '\n' := by
    intro x hx
    rw [hCr] at hx
    rcases List.mem_append.mp hx with hx | hx
    · exact hTnl x hx
    · rcases List.mem_append.mp hx with hx | hx
      · exact renderFields_no_newline M hMnl x hx
      · rcases List.mem_append.mp hx with hx | hx
        · exact renderTags_no_newline NT
            (fun t ht x2 hx2 => (isTagChar_facts ((hNTsh t ht).2 x2 hx2)).1) x hx
        · rcases List.mem_cons.mp hx with rfl | hx
          · decide
          · rcases List.mem_cons.mp hx with rfl | hx
            · decide
            · exact (isIdChar_facts (hbid x hx)).1
  have hguard : ((c = ' ' || c = 'x') && !C.isEmpty &&
      C.all (fun ch => !(ch = '\n'))) = true := by
    simp only [Bool.and_eq_true, Bool.or_eq_true, decide_eq_true_eq, List.all_eq_true,
      Bool.not_eq_true', List.isEmpty_eq_false, decide_eq_false_iff_not]
    exact ⟨⟨hc, hCne⟩, hCnl⟩
  rw [parseItem_mk, if_pos hguard, htextC, hfieldsC, htagsC, hblockCmap]

/-! ### Update idempotence on valid items (C6, amended) -/

/-- C6 (amended): `update` is idempotent exactly on well-behaved items.
For an item whose components the line grammar reproduces (display text
free of `[`, `#` and newlines, trimmed, without adjacent whitespace
pairs; a well-formed field record with distinct keys; well-formed tags; a
well-formed block id) and a well-formed status and optional note value,
the line written by one update re-parses to an item on which a second
update with the identical patch rebuilds exactly the same line.  The
spec's unconditional idempotence is refuted by the counterexample: on
`- [ ] xx [a ^id` (display text `xx [a`) two identical updates produce
two different lines. -/
theorem update_idempotent_for_valid (item : KanbanItem) (s : String)
    (note : Option String) (ix : Nat) (lt : String)
    (hvalid : ValidItem item) (hs : wfVal s = true)
    (hnote : ∀ n, note = some n → wfVal n = true) :
    ∃ item2, parseItem (updateLine item s note) ix lt = some item2 ∧
      updateLine item2 s note = updateLine item s note := by
  obtain ⟨htext, hfw, hnd, htw, hbl⟩ := hvalid
  obtain ⟨b, hb⟩ : ∃ b, item.blockId = some b := by
    cases hbi : item.blockId with
    | none => rw [hbi] at hbl; exact absurd hbl (by simp)
    | some b2 => exact ⟨b2, rfl⟩
  have hbw : wfId b = true := by
    rw [hb] at hbl
    simpa using hbl
  have hTwf : wfText (String.mk item.text.data) = true := by rwa [mk_data]
  have htagsWf : ∀ t ∈ item.tags, wfTag t = true := List.all_eq_true.mp htw
  have hfieldsWf := fieldsAll_shape hfw
  cases note with
  | none =>
    have hM : ∀ kv ∈ mergeFields item.fields [("status", s)],
        wfKey kv.1 = true ∧ wfVal kv.2 = true := by
      intro kv hkv
      rcases mem_mergeFields hkv with h | h
      · exact hfieldsWf kv h
      · have hkv2 : kv = ("status", s) := by simpa using h
        subst hkv2
        exact ⟨(by decide : wfKey "status" = true), hs⟩
    have hMnd := mergeFields_nodup [("status", s)] item.fields hnd
    have hNT : ∀ t ∈ updateStatusTags item.tags s, wfTag t = true :=
      updateStatusTags_wf htagsWf
    have hparse := parse_rebuilt_line item.text.data
      (mergeFields item.fields [("status", s)]) (updateStatusTags item.tags s) b
      (if item.checked then 'x' else ' ') ix lt hTwf hM hMnd hNT hbw
      (by cases item.checked <;> simp)
    have hld : (updateLine item s none).data =
        '-' :: ' ' :: '[' :: (if item.checked then 'x' else ' ') :: ']' :: ' ' ::
          (item.text.data ++ renderFields (mergeFields item.fields [("status", s)]) ++
            renderTags (updateStatusTags item.tags s) ++ (' ' :: '^' :: b.data)) := by
      unfold updateLine
      rw [buildItemLine_data, hb]
      rfl
    have hlineEq : updateLine item s none = String.mk ('-' :: ' ' :: '[' ::
        (if item.checked then 'x' else ' ') :: ']' :: ' ' ::
        (item.text.data ++ renderFields (mergeFields item.fields [("status", s)]) ++
          renderTags (updateStatusTags item.tags s) ++ (' ' :: '^' :: b.data))) := by
      conv_lhs => rw [← mk_data (updateLine item s none)]
      rw [hld]
    have hmain := hparse
    rw [← hlineEq] at hmain
    refine ⟨_, hmain, ?_⟩
    apply updateLine_fields_eq_none
    · show decide ((if item.checked then 'x' else ' ') = 'x') = item.checked
      cases item.checked <;> decide
    · show String.mk item.text.data = item.text
      exact mk_data item.text
    · show some b = item.blockId
      exact hb.symm
    · exact merge_patch_self_one item.fields s hnd
    · exact updateStatusTags_idem item.tags s
  | some n =>
    have hM : ∀ kv ∈ mergeFields item.fields [("status", s), ("note", n)],
        wfKey kv.1 = true ∧ wfVal kv.2 = true := by
      intro kv hkv
      rcases mem_mergeFields hkv with h | h
      · exact hfieldsWf kv h
      · rcases List.mem_cons.mp h with rfl | h2
        · exact ⟨(by decide : wfKey "status" = true), hs⟩
        · have hkv2 : kv = ("note", n) := by simpa using h2
          subst hkv2
          exact ⟨(by decide : wfKey "note" = true), hnote n rfl⟩
    have hMnd := mergeFields_nodup [("status", s), ("note", n)] item.fields hnd
    have hNT : ∀ t ∈ updateStatusTags item.tags s, wfTag t = true :=
      updateStatusTags_wf htagsWf
    have hparse := parse_rebuilt_line item.text.data
      (mergeFields item.fields [("status", s), ("note", n)]) (updateStatusTags item.tags s) b
      (if item.checked then 'x' else ' ') ix lt hTwf hM hMnd hNT hbw
      (by cases item.checked <;> simp)
    have hld : (updateLine item s (some n)).data =
        '-' :: ' ' :: '[' :: (if item.checked then 'x' else ' ') :: ']' :: ' ' ::
          (item.text.data ++
            renderFields (mergeFields item.fields [("status", s), ("note", n)]) ++
            renderTags (updateStatusTags item.tags s) ++ (' ' :: '^' :: b.data)) := by
      unfold updateLine
      rw [buildItemLine_data, hb]
      rfl
    have hlineEq : updateLine item s (some n) = String.mk ('-' :: ' ' :: '[' ::
        (if item.checked then 'x' else ' ') :: ']' :: ' ' ::
        (item.text.data ++
          renderFields (mergeFields item.fields [("status", s), ("note", n)]) ++
          renderTags (updateStatusTags item.tags s) ++ (' ' :: '^' :: b.data))) := by
      conv_lhs => rw [← mk_data (updateLine item s (some n))]
      rw [hld]
    have hmain := hparse
    rw [← hlineEq] at hmain
    refine ⟨_, hmain, ?_⟩
    apply updateLine_fields_eq_some
    · show decide ((if item.checked then 'x' else ' ') = 'x') = item.checked
      cases item.checked <;> decide
    · show String.mk item.text.data = item.text
      exact mk_data item.text
    · show some b = item.blockId
      exact hb.symm
    · exact merge_patch_self_two item.fields s n hnd
    · exact updateStatusTags_idem item.tags s

/-- Witness for C6 (amended) at a concrete valid item: the task line
`- [ ] task ^abc` updated to status `blocked` re-parses and a second
identical update rebuilds the same line. -/
theorem update_idempotent_for_valid_witness :
    ∃ item2, parseItem (updateLine
        { lineIndex := 1, raw := "- [ ] task ^abc", checked := false, text := "task",
          blockId := some "abc", fields := [], tags := [], laneTitle := "Ready" }
        "blocked" none) 1 "Ready" = some item2 ∧
      updateLine item2 "blocked" none = updateLine
        { lineIndex := 1, raw := "- [ ] task ^abc", checked := false, text := "task",
          blockId := some "abc", fields := [], tags := [], laneTitle := "Ready" }
        "blocked" none :=
  update_idempotent_for_valid
    { lineIndex := 1, raw := "- [ ] task ^abc", checked := false, text := "task",
      blockId := some "abc", fields := [], tags := [], laneTitle := "Ready" }
    "blocked" none 1 "Ready"
    ⟨by decide, by decide, by decide, by decide, by decide⟩
    (by decide) (fun n hn => by cases hn)

end Kanban
